import Mathlib

set_option maxRecDepth 10000
set_option maxHeartbeats 1600000

/-!
Verification of the embed-sync tool (`src/index.ts`): directive scanning,
symbol extraction, and the in-place rewrite engine.

Documents and source files are modelled as `List Char`; character offsets
are `Nat`.  JavaScript regular expressions are modelled by a small
backtracking matcher (`Re`, `mmatch`, `mexec`) mirroring the leftmost-match,
greedy / lazy semantics of `RegExp.exec`.  File-system access
(`fs.existsSync`, `fs.readFileSync`, `path.resolve`, the per-run caches) and
the TypeScript parser are external collaborators; they are modelled by
explicit parameters (a resolver oracle, a parsed source unit) at the
boundaries where the code consumes them.
-/

namespace EmbedSync

/-- JavaScript whitespace as matched by the regex class `\s` and trimmed by
`String.prototype.trim`: space, tab, newline, carriage return, vertical tab,
form feed.  (Unicode spaces beyond ASCII behave identically and are not
distinguished by any code path modelled here.) -/
def jsWs (c : Char) : Bool :=
  c == ' ' || c == '\t' || c == '\n' || c == '\r' || c == Char.ofNat 11 || c == Char.ofNat 12

/-- `String.prototype.trimStart`. -/
def jsTrimStart (s : List Char) : List Char := s.dropWhile jsWs

/-- `String.prototype.trimEnd`. -/
def jsTrimEnd (s : List Char) : List Char := (s.reverse.dropWhile jsWs).reverse

/-- `String.prototype.trim`. -/
def jsTrim (s : List Char) : List Char := jsTrimEnd (jsTrimStart s)

/-- `s.split("\n")`: splitting an empty string yields one empty piece, and a
trailing newline yields a trailing empty piece, exactly as in JavaScript. -/
def splitNl : List Char → List (List Char)
  | [] => [[]]
  | c :: rest =>
    if c = '\n' then [] :: splitNl rest
    else
      match splitNl rest with
      | [] => [[c]]
      | l :: ls => (c :: l) :: ls

/-- `s.substring(a, b)` for `a ≤ b` (the only way the tool calls it). -/
def strSub (s : List Char) (a b : Nat) : List Char := (s.take b).drop a

/-- First index `p` with `from ≤ p` at which `needle` occurs in `hay`,
traversed with explicit fuel; `none` plays the role of JavaScript's `-1`
result of `hay.indexOf(needle, from)`. -/
def idxOfFromAux (needle hay : List Char) : Nat → Nat → Option Nat
  | _, 0 => none
  | pos, fuel+1 =>
    if needle.isPrefixOf (hay.drop pos) then some pos
    else idxOfFromAux needle hay (pos+1) fuel

/-- `hay.indexOf(needle, from)` for a non-empty `needle`. -/
def jsIndexOfFrom (needle hay : List Char) (start : Nat) : Option Nat :=
  idxOfFromAux needle hay start (hay.length + 1)

/-- `hay.indexOf(c, from)` for a single character. -/
def jsIndexOfCharFrom (c : Char) (hay : List Char) (start : Nat) : Option Nat :=
  jsIndexOfFrom [c] hay start

/-- `needle` occurs in `hay` at offset `p`. -/
def OccursAt (needle hay : List Char) (p : Nat) : Prop :=
  needle.isPrefixOf (hay.drop p) = true

instance (needle hay : List Char) (p : Nat) : Decidable (OccursAt needle hay p) := by
  unfold OccursAt; infer_instance

/-- Abstract syntax of the regular expressions built by the tool.  Because
`escapeRegex` escapes every metacharacter before interpolation, dynamically
built fragments (tag, source path, symbol name) always denote literal text
and appear below as `str` literals. -/
inductive Re where
  | eps : Re
  | lit : Char → Re
  | cls : (Char → Bool) → Re
  | cat : Re → Re → Re
  | alt : Re → Re → Re
  | starG : Re → Re
  | starL : Re → Re
  | grp : Nat → Re → Re

/-- Capture list: (group index, start offset, end offset), latest first. -/
abbrev Caps := List (Nat × Nat × Nat)

/-- Greedy `*`: keep taking body iterations (each must consume at least one
character, as JavaScript engines abort an iteration that matched empty),
backtracking to fewer iterations when the continuation fails. -/
def starGLoop
    (m : Nat → Caps → (Nat → Caps → Option (Nat × Caps)) → Option (Nat × Caps)) :
    Nat → Nat → Caps → (Nat → Caps → Option (Nat × Caps)) → Option (Nat × Caps)
  | 0, pos, caps, k => k pos caps
  | fuel+1, pos, caps, k =>
    Option.orElse
      (m pos caps fun pos' caps' =>
        if pos' ≤ pos then none else starGLoop m fuel pos' caps' k)
      (fun _ => k pos caps)

/-- Lazy `*?`: prefer the continuation, take a body iteration only when the
continuation fails. -/
def starLLoop
    (m : Nat → Caps → (Nat → Caps → Option (Nat × Caps)) → Option (Nat × Caps)) :
    Nat → Nat → Caps → (Nat → Caps → Option (Nat × Caps)) → Option (Nat × Caps)
  | 0, pos, caps, k => k pos caps
  | fuel+1, pos, caps, k =>
    Option.orElse
      (k pos caps)
      (fun _ => m pos caps fun pos' caps' =>
        if pos' ≤ pos then none else starLLoop m fuel pos' caps' k)

/-- Backtracking matcher in continuation-passing style: attempt `r` at
offset `pos` of `input`, calling `k` with the offset after the match and the
captures accumulated so far.  Alternatives are tried left to right, exactly
as JavaScript's backtracking engine does. -/
def mmatch (input : List Char) :
    Re → Nat → Caps → (Nat → Caps → Option (Nat × Caps)) → Option (Nat × Caps)
  | .eps, pos, caps, k => k pos caps
  | .lit c, pos, caps, k =>
    match input.drop pos with
    | [] => none
    | c' :: _ => if c' = c then k (pos+1) caps else none
  | .cls p, pos, caps, k =>
    match input.drop pos with
    | [] => none
    | c' :: _ => if p c' then k (pos+1) caps else none
  | .cat r1 r2, pos, caps, k =>
    mmatch input r1 pos caps fun p c => mmatch input r2 p c k
  | .alt r1 r2, pos, caps, k =>
    Option.orElse (mmatch input r1 pos caps k) (fun _ => mmatch input r2 pos caps k)
  | .starG r, pos, caps, k => starGLoop (mmatch input r) (input.length + 1) pos caps k
  | .starL r, pos, caps, k => starLLoop (mmatch input r) (input.length + 1) pos caps k
  | .grp i r, pos, caps, k =>
    mmatch input r pos caps fun p c => k p ((i, pos, p) :: c)

/-- Try a whole-pattern match at `pos`, `pos+1`, …: leftmost match wins. -/
def mexecAux (input : List Char) (r : Re) : Nat → Nat → Option (Nat × Nat × Caps)
  | _, 0 => none
  | pos, fuel+1 =>
    match mmatch input r pos [] (fun e caps => some (e, caps)) with
    | some (e, caps) => some (pos, e, caps)
    | none => mexecAux input r (pos+1) fuel

/-- `re.exec(input)` searching from offset `start` (the `lastIndex`):
returns (match index, match end, captures) of the leftmost match, or `none`
where JavaScript returns `null`. -/
def mexec (r : Re) (input : List Char) (start : Nat) : Option (Nat × Nat × Caps) :=
  mexecAux input r start (input.length + 1 - start)

/-- Literal text as a pattern (`escapeRegex` output interpolated into a
pattern denotes exactly this). -/
def Re.str (s : List Char) : Re := s.foldr (fun c r => .cat (.lit c) r) .eps

/-- Literal text pattern from a string literal. -/
def Re.strS (s : String) : Re := Re.str s.toList

/-- Greedy `+`. -/
def Re.plusG (r : Re) : Re := .cat r (.starG r)

/-- Lazy `+?`. -/
def Re.plusL (r : Re) : Re := .cat r (.starL r)

/-- Greedy `?`. -/
def Re.opt (r : Re) : Re := .alt r .eps

/-- `(?:a|b|…)` over literal words, tried left to right. -/
def Re.altStrs (ss : List String) : Re :=
  ss.foldr (fun s r => .alt (Re.strS s) r) (.cls fun _ => false)

/-- Span of capture group `i`, if the group participated in the match. -/
def capSpan (caps : Caps) (i : Nat) : Option (Nat × Nat) :=
  (caps.find? (fun t => t.1 == i)).map (fun t => t.2)

/-- Text of capture group `i` (empty when absent, as with `match[i] || ""`). -/
def capText (input : List Char) (caps : Caps) (i : Nat) : List Char :=
  match capSpan caps i with
  | some (s, e) => strSub input s e
  | none => []

/-- The directive kind: the `"ts" | "cs"` union in the source. -/
inductive EKind where
  | ts : EKind
  | cs : EKind
deriving DecidableEq, Repr

/-- The string value of the kind. -/
def EKind.str : EKind → List Char
  | .ts => "ts".toList
  | .cs => "cs".toList

/-- The open-marker pattern of `findDirectives`:
`/<!--\s*(ts-embed|cs-embed)\s*:\s*([^#]+)#(\S+?)\s*-->/g`. -/
def markerRe : Re :=
  .cat (Re.strS "<!--") (.cat (.starG (.cls jsWs))
    (.cat (.grp 1 (.alt (Re.strS "ts-embed") (Re.strS "cs-embed")))
      (.cat (.starG (.cls jsWs)) (.cat (.lit ':')
        (.cat (.starG (.cls jsWs))
          (.cat (.grp 2 (Re.plusG (.cls fun c => c != '#')))
            (.cat (.lit '#')
              (.cat (.grp 3 (Re.plusL (.cls fun c => !(jsWs c))))
                (.cat (.starG (.cls jsWs)) (Re.strS "-->"))))))))))

/-- One collected opening marker (the record pushed in the first pass of
`findDirectives`). -/
structure OpenMarker where
  index : Nat
  length : Nat
  kind : EKind
  sourcePath : List Char
  symbolName : List Char
deriving DecidableEq, Repr

/-- The record pushed for one `markerRe` match: `match[1].startsWith("ts")`
chooses the kind, `match[2].trim()` and `match[3].trim()` give path and
symbol. -/
def markerOf (content : List Char) (idx e : Nat) (caps : Caps) : OpenMarker :=
  { index := idx, length := e - idx,
    kind := if List.isPrefixOf "ts".toList (capText content caps 1) then .ts else .cs,
    sourcePath := jsTrim (capText content caps 2),
    symbolName := jsTrim (capText content caps 3) }

/-- The `markerRe.exec` loop of the first pass: repeated `exec` with the
`g` flag, `lastIndex` advancing to each match's end. -/
def scanOpenMarkersAux (content : List Char) : Nat → Nat → List OpenMarker
  | _, 0 => []
  | pos, fuel+1 =>
    match mexec markerRe content pos with
    | none => []
    | some (idx, e, caps) =>
      markerOf content idx e caps ::
        scanOpenMarkersAux content (if idx < e then e else idx + 1) fuel

/-- All opening markers of a document, in order of appearance. -/
def scanOpenMarkers (content : List Char) : List OpenMarker :=
  scanOpenMarkersAux content 0 (content.length + 1)

/-- The `EmbedDirective` interface.  `endIndex = none` models the `-1`
sentinel (no closing marker found within the scan window). -/
structure EmbedDirective where
  kind : EKind
  sourcePath : List Char
  symbolName : List Char
  lineNumber : Nat
  startIndex : Nat
  endIndex : Option Nat
deriving DecidableEq, Repr

/-- The literal closing tag `<!-- /<kind>-embed -->`. -/
def closeTagOf (k : EKind) : List Char :=
  "<!-- /".toList ++ k.str ++ "-embed -->".toList

/-- Placeholder marker for the (never taken) out-of-range branch of the
indexed second-pass loop. -/
def defaultMarker : OpenMarker := ⟨0, 0, .ts, [], []⟩

/-- `findDirectives`: second pass searches each marker's closing tag only in
the window up to the next opening marker (or end of document). -/
def findDirectives (content : List Char) : List EmbedDirective :=
  let oms := scanOpenMarkers content
  (List.range oms.length).map fun i =>
    let m := oms.getD i defaultMarker
    let searchStart := m.index + m.length
    let searchEnd :=
      if i + 1 < oms.length then (oms.getD (i+1) defaultMarker).index else content.length
    let searchRegion := strSub content searchStart searchEnd
    let closeTag := closeTagOf m.kind
    { kind := m.kind, sourcePath := m.sourcePath, symbolName := m.symbolName,
      lineNumber := (splitNl (strSub content 0 m.index)).length,
      startIndex := m.index,
      endIndex := (jsIndexOfFrom closeTag searchRegion 0).map
        (fun rel => searchStart + rel + closeTag.length) }

/-- The `ErrorReport` interface.  `mdFile` holds the (externally) resolved
document path. -/
structure ErrorReport where
  mdFile : List Char
  lineNumber : Nat
  reason : List Char
  sourcePath : List Char
  symbolName : List Char
deriving DecidableEq, Repr

/-- The resolver boundary: `resolveEmbed` performs file-system access
(`path.resolve`, `fs.existsSync`) and dispatches to an extractor, producing
either extracted code or an error reason.  The rewrite engine is modelled
parametrically in this oracle. -/
abbrev Resolver := EmbedDirective → Except (List Char) (List Char)

/-- The dynamically built open-marker pattern of `applyEmbeds`:
`<!--\s*${tag}\s*:\s*${path}#${symbol}\s*-->` with every interpolated
fragment escaped to literal text by `escapeRegex`. -/
def openMarkerReFor (d : EmbedDirective) : Re :=
  .cat (Re.strS "<!--") (.cat (.starG (.cls jsWs))
    (.cat (Re.str (d.kind.str ++ "-embed".toList))
      (.cat (.starG (.cls jsWs)) (.cat (.lit ':')
        (.cat (.starG (.cls jsWs))
          (.cat (Re.str d.sourcePath)
            (.cat (.lit '#')
              (.cat (Re.str d.symbolName)
                (.cat (.starG (.cls jsWs)) (Re.strS "-->"))))))))))

/-- The generated replacement block: fenced code block, attribution line,
extracted code, fence close, literal closing marker, joined by newlines. -/
def codeBlockFor (d : EmbedDirective) (code : List Char) : List Char :=
  let lang := match d.kind with | .ts => "ts".toList | .cs => "csharp".toList
  let tag := d.kind.str ++ "-embed".toList
  "```".toList ++ lang ++ '\n' ::
    ("// @generated by embed-sync — do not edit".toList ++ '\n' ::
      (code ++ '\n' :: ("```".toList ++ '\n' ::
        ("<!-- /".toList ++ tag ++ " -->".toList))))

/-- One iteration of the rewrite loop of `applyEmbeds`: an error appends one
report and leaves the text alone; otherwise the open marker is re-matched in
the current text from the recorded start offset (skipping this directive
silently when it no longer matches) and the span from the end of that match
to the recorded close offset (or nothing, for the no-close sentinel) is
replaced by the generated block. -/
def processOne (resolve : Resolver) (mdPath : List Char) :
    (List Char × List ErrorReport) → EmbedDirective → (List Char × List ErrorReport)
  | (result, errors), dir =>
    match resolve dir with
    | .error reason =>
      (result,
       errors ++ [{ mdFile := mdPath, lineNumber := dir.lineNumber, reason := reason,
                    sourcePath := dir.sourcePath, symbolName := dir.symbolName }])
    | .ok code =>
      match mexec (openMarkerReFor dir) (result.drop dir.startIndex) 0 with
      | none => (result, errors)
      | some (_, me, _) =>
        let absOpenEnd := dir.startIndex + me
        let replaceEnd := match dir.endIndex with | some e => e | none => absOpenEnd
        (result.take absOpenEnd ++ '\n' :: codeBlockFor dir code ++ result.drop replaceEnd,
         errors)

/-- Insertion step of `[...directives].sort((a, b) => b.startIndex - a.startIndex)`:
stable, descending by `startIndex`. -/
def insertDesc (x : EmbedDirective) : List EmbedDirective → List EmbedDirective
  | [] => [x]
  | y :: ys => if x.startIndex ≤ y.startIndex then y :: insertDesc x ys else x :: y :: ys

/-- The descending sort applied before the rewrite loop. -/
def sortByStartDesc (l : List EmbedDirective) : List EmbedDirective :=
  l.foldr insertDesc []

/-- `applyEmbeds`: scan, resolve each directive, rewrite in reverse offset
order, accumulate error reports.  `mdPath` stands for the resolved document
path recorded in reports. -/
def applyEmbeds (resolve : Resolver) (content : List Char) (mdPath : List Char) :
    List Char × List ErrorReport :=
  let directives := findDirectives content
  if directives.length = 0 then (content, [])
  else (sortByStartDesc directives).foldl (processOne resolve mdPath) (content, [])

/-- One line of leading trivia kept by `extractNodeText`:
`l.trim().startsWith("*") || l.trim().startsWith("/") || l.trim().startsWith("/**")`. -/
def isCommentLine (l : List Char) : Bool :=
  List.isPrefixOf "*".toList (jsTrim l) || List.isPrefixOf "/".toList (jsTrim l)
    || List.isPrefixOf "/**".toList (jsTrim l)

/-- `extractNodeText(source, node)` with the node's `getFullStart()`,
`getStart()` and `getEnd()` offsets passed explicitly (they come from the
external TypeScript parser). -/
def extractNodeText (source : List Char) (fullStart start endPos : Nat) : List Char :=
  let leading := strSub source fullStart start
  let commentLines := (splitNl leading).filter isCommentLine
  let commentBlock := if commentLines.length > 0 then jsTrimStart leading else []
  let body := strSub source start endPos
  (if commentBlock = [] then [] else commentBlock ++ ['\n']) ++ jsTrimEnd body

/-- A top-level (or namespace-nested) statement of a parsed source file, as
far as `extractTsSymbol` inspects it.  `namedDecl` covers function, class,
interface, type-alias and enum declarations (their `name?.text`, absent for
unnamed declarations); `moduleDecl` is a namespace/module declaration whose
name node text is `name`, with `nameIsIdent` true exactly when the name node
is an `Identifier` (it can also be a string literal), and `body` carrying the
nested statements exactly when the body is a `ModuleBlock`; `varStmt` carries
the first declarator's name when that declarator's binding is an identifier;
`otherStmt` is any other statement.  Each constructor records the node's
full-start, start and end offsets. -/
inductive StmtM where
  | namedDecl (name : Option (List Char)) (fullStart start endPos : Nat)
  | moduleDecl (name : List Char) (nameIsIdent : Bool) (body : Option (List StmtM))
      (fullStart start endPos : Nat)
  | varStmt (firstDeclName : Option (List Char)) (fullStart start endPos : Nat)
  | otherStmt (fullStart start endPos : Nat)
deriving Repr

/-- `getNodeDeclaredName`: the `name?.text ?? null` of a recognized
declaration form (note that a module's name text is returned whether or not
the name node is an identifier). -/
def getNodeDeclaredName : StmtM → Option (List Char)
  | .namedDecl name _ _ _ => name
  | .moduleDecl name _ _ _ _ _ => some name
  | .varStmt firstDeclName _ _ _ => firstDeclName
  | .otherStmt _ _ _ => none

/-- The node's text span, via `extractNodeText`. -/
def stmtText (source : List Char) : StmtM → List Char
  | .namedDecl _ f s e => extractNodeText source f s e
  | .moduleDecl _ _ _ f s e => extractNodeText source f s e
  | .varStmt _ f s e => extractNodeText source f s e
  | .otherStmt f s e => extractNodeText source f s e

/-- A parsed source file: its full text and top-level statements (the
`ts.createSourceFile` result, produced by the external parser). -/
structure SourceFileM where
  text : List Char
  statements : List StmtM

/-- The statement walk of `extractTsSymbol`: top-level name match first,
then — for a namespace with an identifier name and a `ModuleBlock` body
when the symbol is `Name.`-prefixed — one level of nested statements. -/
def extractTsSymbolGo (source : List Char) (symbolName : List Char) :
    List StmtM → Option (List Char)
  | [] => none
  | stmt :: rest =>
    if getNodeDeclaredName stmt = some symbolName then
      some (stmtText source stmt)
    else
      match stmt with
      | .moduleDecl name true (some body) _ _ _ =>
        if List.isPrefixOf (name ++ ['.']) symbolName then
          match body.find?
              (fun inner => getNodeDeclaredName inner == some (symbolName.drop (name.length + 1))) with
          | some inner => some (stmtText source inner)
          | none => extractTsSymbolGo source symbolName rest
        else extractTsSymbolGo source symbolName rest
      | _ => extractTsSymbolGo source symbolName rest

/-- `extractTsSymbol` on an already-parsed source file (file reading and the
parse cache are external). -/
def extractTsSymbol (sf : SourceFileM) (symbolName : List Char) : Option (List Char) :=
  extractTsSymbolGo sf.text symbolName sf.statements

/-- C# modifier keywords of the type-level declaration pattern, in source
order of the alternation. -/
def csModifierRe : Re :=
  Re.altStrs ["public", "private", "protected", "internal", "static", "abstract",
    "sealed", "partial", "async", "virtual", "override", "readonly", "new"]

/-- C# type-level declaration keywords. -/
def csDeclKwRe : Re := Re.altStrs ["class", "interface", "struct", "enum", "record", "delegate"]

/-- The `[ \t]` indentation class. -/
def spTab (c : Char) : Bool := c == ' ' || c == '\t'

/-- `(?:\s*///[^\n]*\n)*` — leading XML doc lines. -/
def xmlDocLinesRe : Re :=
  .starG (.cat (.starG (.cls jsWs))
    (.cat (Re.strS "///") (.cat (.starG (.cls fun c => c != '\n')) (.lit '\n'))))

/-- `(?:\s*\[[^\]]*\]\s*\n)*` — leading attribute lines. -/
def attrLinesRe : Re :=
  .starG (.cat (.starG (.cls jsWs))
    (.cat (.lit '[') (.cat (.starG (.cls fun c => c != ']'))
      (.cat (.lit ']') (.cat (.starG (.cls jsWs)) (.lit '\n'))))))

/-- The type-level declaration pattern of `extractCsSymbol` (the symbol name
is escaped, hence literal). -/
def declPattern (symbolName : List Char) : Re :=
  .cat (.grp 1 (.cat xmlDocLinesRe attrLinesRe))
    (.grp 2 (.cat (.starG (.cls spTab))
      (.cat (.starG (.cat csModifierRe (Re.plusG (.cls jsWs))))
        (.cat csDeclKwRe
          (.cat (Re.plusG (.cls jsWs))
            (.cat (Re.str symbolName)
              (.starG (.cls fun c => c != '{' && c != ';'))))))))

/-- Modifier keywords of the method/member fallback pattern (no `readonly`). -/
def csMethodModifierRe : Re :=
  Re.altStrs ["public", "private", "protected", "internal", "static", "abstract",
    "sealed", "partial", "async", "virtual", "override", "new"]

/-- The `[\w<>\[\],\s\.\?]` return-type class (`\w` is `[A-Za-z0-9_]`). -/
def retTypeCls (c : Char) : Bool :=
  c.isAlphanum || c == '_' || c == '<' || c == '>' || c == '[' || c == ']' || c == ','
    || jsWs c || c == '.' || c == '?'

/-- The method/property fallback pattern of `extractCsMethod`. -/
def methodPattern (symbolName : List Char) : Re :=
  .cat (.grp 1 xmlDocLinesRe)
    (.grp 2 (.cat (.starG (.cls spTab))
      (.cat (.starG (.cat csMethodModifierRe (Re.plusG (.cls jsWs))))
        (.cat (Re.plusG (.cls retTypeCls))
          (.cat (Re.plusG (.cls jsWs))
            (.cat (Re.str symbolName)
              (.cat (.starG (.cls jsWs))
                (.cat (Re.opt (.cat (.lit '<') (.cat (.starG (.cls fun c => c != '>')) (.lit '>'))))
                  (.cat (.starG (.cls jsWs))
                    (.cat (.lit '(') (.cat (.starG (.cls fun c => c != ')'))
                      (.cat (.lit ')') (.starG (.cls fun c => c != '{' && c != ';'))))))))))))))

/-- Lexical mode of the balanced-delimiter scanner: outside any comment or
string, inside `// …`, inside `/* … */`, inside a verbatim `@"…"` string, or
inside an ordinary quoted string with the given quote character. -/
inductive CsMode where
  | plain
  | lineComment
  | blockComment
  | verbatim
  | strLit (q : Char)
deriving DecidableEq, Repr

/-- The backquote character (the one `stringChar` the escape rule exempts). -/
def backquote : Char := Char.ofNat 96

/-- Outcome of one iteration of the `findMatchingBrace` loop: return the
current offset, or continue after consuming one or two characters with an
updated mode and depth. -/
inductive FmbOut where
  | ret
  | step1 (m : CsMode) (d : Int)
  | step2 (m : CsMode) (d : Int)
deriving DecidableEq, Repr

/-- The body of the `findMatchingBrace` loop at one position: `ch` is the
current character, `next` its successor. -/
def fmbStep (mode : CsMode) (depth : Int) (ch : Char) (next : Option Char) : FmbOut :=
  match mode with
  | .lineComment => if ch = '\n' then .step1 .plain depth else .step1 .lineComment depth
  | .blockComment =>
    if ch = '*' ∧ next = some '/' then .step2 .plain depth else .step1 .blockComment depth
  | .verbatim =>
    if ch = '"' ∧ next = some '"' then .step2 .verbatim depth
    else if ch = '"' then .step1 .plain depth
    else .step1 .verbatim depth
  | .strLit q =>
    if ch = '\\' ∧ q ≠ backquote then .step2 (.strLit q) depth
    else if ch = q then .step1 .plain depth
    else .step1 (.strLit q) depth
  | .plain =>
    if ch = '/' ∧ next = some '/' then .step2 .lineComment depth
    else if ch = '/' ∧ next = some '*' then .step2 .blockComment depth
    else if ch = '@' ∧ next = some '"' then .step2 .verbatim depth
    else if ch = '"' ∨ ch = '\'' then .step1 (.strLit ch) depth
    else if ch = '{' then .step1 .plain (depth + 1)
    else if ch = '}' then (if depth - 1 = 0 then .ret else .step1 .plain (depth - 1))
    else .step1 .plain depth

/-- Driver of the scan: `pos` is the absolute offset of the head of the
remaining text. -/
def fmbAux : Nat → List Char → Nat → Int → CsMode → Option Nat
  | 0, _, _, _, _ => none
  | _+1, [], _, _, _ => none
  | fuel+1, c :: rest, pos, depth, mode =>
    match fmbStep mode depth c rest.head? with
    | .ret => some pos
    | .step1 m d => fmbAux fuel rest (pos+1) d m
    | .step2 m d => fmbAux fuel rest.tail (pos+2) d m

/-- `findMatchingBrace(source, openPos)`; `none` models the `-1` result. -/
def findMatchingBrace (source : List Char) (openPos : Nat) : Option Nat :=
  fmbAux (source.length + 1) (source.drop openPos) openPos 0 .plain

/-- `extractCsMethod` (file reading is external, the raw source is passed). -/
def extractCsMethod (source : List Char) (symbolName : List Char) : Option (List Char) :=
  match mexec (methodPattern symbolName) source 0 with
  | none => none
  | some (idx, e, caps) =>
    let preamble := capText source caps 1
    let declStart := idx + preamble.length - (jsTrimStart preamble).length
    match jsIndexOfCharFrom '{' source e with
    | none =>
      match jsIndexOfCharFrom ';' source e with
      | none => none
      | some semi => some (jsTrimEnd (strSub source declStart (semi + 1)))
    | some braceStart =>
      match findMatchingBrace source braceStart with
      | none => none
      | some endIdx => some (jsTrimEnd (strSub source declStart (endIdx + 1)))

/-- `extractCsSymbol`: type-level declaration pattern first, method/member
fallback second; terminator decided by comparing the next `{` against the
next `;` (plain `indexOf`, so occurrences inside comments or strings count). -/
def extractCsSymbol (source : List Char) (symbolName : List Char) : Option (List Char) :=
  match mexec (declPattern symbolName) source 0 with
  | none => extractCsMethod source symbolName
  | some (idx, e, caps) =>
    let preamble := capText source caps 1
    let declStart := idx + preamble.length - (jsTrimStart preamble).length
    let braceStart := jsIndexOfCharFrom '{' source e
    let semiStart := jsIndexOfCharFrom ';' source e
    match semiStart, braceStart with
    | some s, none => some (jsTrimEnd (strSub source declStart (s + 1)))
    | some s, some b =>
      if s < b then some (jsTrimEnd (strSub source declStart (s + 1)))
      else
        match findMatchingBrace source b with
        | none => none
        | some endIdx => some (jsTrimEnd (strSub source declStart (endIdx + 1)))
    | none, none => none
    | none, some b =>
      match findMatchingBrace source b with
      | none => none
      | some endIdx => some (jsTrimEnd (strSub source declStart (endIdx + 1)))

/-! ### Helper lemmas about the matcher -/

theorem orElse_eq_some_iff {α : Type} (a : Option α) (b : Unit → Option α) (x : α) :
    Option.orElse a b = some x ↔ a = some x ∨ (a = none ∧ b () = some x) := by
  cases a <;> simp [Option.orElse]

/-- Every successful match invokes its continuation at an offset that moved
forward and (unless it is the starting offset itself) stays inside the
input. -/
theorem mmatch_bound {input : List Char} : ∀ (r : Re) (pos : Nat) (caps : Caps)
    (k : Nat → Caps → Option (Nat × Caps)) (res : Nat × Caps),
    mmatch input r pos caps k = some res →
    ∃ pos' caps', pos ≤ pos' ∧ (pos' = pos ∨ pos' ≤ input.length) ∧ k pos' caps' = some res := by
  intro r
  induction r with
  | eps => exact fun pos caps k res h => ⟨pos, caps, Nat.le_refl _, Or.inl rfl, h⟩
  | lit c =>
    intro pos caps k res h
    simp only [mmatch] at h
    rcases hd : input.drop pos with _ | ⟨c', t⟩ <;> rw [hd] at h
    · exact absurd h (by simp)
    · have hlen : pos < input.length := by
        by_contra hle
        have : input.drop pos = [] := List.drop_eq_nil_iff.2 (by omega)
        simp [this] at hd
      have h' : (if c' = c then k (pos + 1) caps else none) = some res := h
      by_cases hc : c' = c
      · rw [if_pos hc] at h'
        exact ⟨pos + 1, caps, by omega, Or.inr (by omega), h'⟩
      · rw [if_neg hc] at h'; exact absurd h' (by simp)
  | cls p =>
    intro pos caps k res h
    simp only [mmatch] at h
    rcases hd : input.drop pos with _ | ⟨c', t⟩ <;> rw [hd] at h
    · exact absurd h (by simp)
    · have hlen : pos < input.length := by
        by_contra hle
        have : input.drop pos = [] := List.drop_eq_nil_iff.2 (by omega)
        simp [this] at hd
      have h' : (if p c' = true then k (pos + 1) caps else none) = some res := h
      by_cases hc : p c' = true
      · rw [if_pos hc] at h'
        exact ⟨pos + 1, caps, by omega, Or.inr (by omega), h'⟩
      · rw [if_neg hc] at h'; exact absurd h' (by simp)
  | cat r1 r2 ih1 ih2 =>
    intro pos caps k res h
    simp only [mmatch] at h
    rcases ih1 _ _ _ _ h with ⟨p1, c1, hle1, hb1, hk1⟩
    rcases ih2 _ _ _ _ hk1 with ⟨p2, c2, hle2, hb2, hk2⟩
    exact ⟨p2, c2, by omega, by omega, hk2⟩
  | alt r1 r2 ih1 ih2 =>
    intro pos caps k res h
    simp only [mmatch] at h
    rcases (orElse_eq_some_iff ..).1 h with h1 | ⟨_, h2⟩
    · exact ih1 _ _ _ _ h1
    · exact ih2 _ _ _ _ h2
  | starG r ih =>
    intro pos caps k res h
    simp only [mmatch] at h
    generalize hf : input.length + 1 = fuel at h
    clear hf
    induction fuel generalizing pos caps with
    | zero => exact ⟨pos, caps, Nat.le_refl _, Or.inl rfl, h⟩
    | succ n ihf =>
      simp only [starGLoop] at h
      rcases (orElse_eq_some_iff ..).1 h with h1 | ⟨_, h2⟩
      · rcases ih _ _ _ _ h1 with ⟨p1, c1, hle1, hb1, hk1⟩
        by_cases hp : p1 ≤ pos
        · rw [if_pos hp] at hk1; exact absurd hk1 (by simp)
        · rw [if_neg hp] at hk1
          rcases ihf p1 c1 hk1 with ⟨p2, c2, hle2, hb2, hk2⟩
          exact ⟨p2, c2, by omega, by omega, hk2⟩
      · exact ⟨pos, caps, Nat.le_refl _, Or.inl rfl, h2⟩
  | starL r ih =>
    intro pos caps k res h
    simp only [mmatch] at h
    generalize hf : input.length + 1 = fuel at h
    clear hf
    induction fuel generalizing pos caps with
    | zero => exact ⟨pos, caps, Nat.le_refl _, Or.inl rfl, h⟩
    | succ n ihf =>
      simp only [starLLoop] at h
      rcases (orElse_eq_some_iff ..).1 h with h1 | ⟨_, h2⟩
      · exact ⟨pos, caps, Nat.le_refl _, Or.inl rfl, h1⟩
      · rcases ih _ _ _ _ h2 with ⟨p1, c1, hle1, hb1, hk1⟩
        by_cases hp : p1 ≤ pos
        · rw [if_pos hp] at hk1; exact absurd hk1 (by simp)
        · rw [if_neg hp] at hk1
          rcases ihf p1 c1 hk1 with ⟨p2, c2, hle2, hb2, hk2⟩
          exact ⟨p2, c2, by omega, by omega, hk2⟩
  | grp i r ih =>
    intro pos caps k res h
    simp only [mmatch] at h
    rcases ih _ _ _ _ h with ⟨p1, c1, hle1, hb1, hk1⟩
    exact ⟨p1, (i, pos, p1) :: c1, hle1, hb1, hk1⟩

/-- A literal-headed pattern consumes at least its first character. -/
theorem mmatch_str_cons_bound {input : List Char} {c : Char} {s : List Char} {r2 : Re} :
    ∀ (pos : Nat) (caps : Caps) (k : Nat → Caps → Option (Nat × Caps)) (res : Nat × Caps),
    mmatch input (Re.cat (Re.str (c :: s)) r2) pos caps k = some res →
    ∃ pos' caps', pos < pos' ∧ pos' ≤ input.length ∧ k pos' caps' = some res := by
  intro pos caps k res h
  have hstr : Re.str (c :: s) = Re.cat (.lit c) (Re.str s) := rfl
  rw [hstr] at h
  simp only [mmatch] at h
  rcases hd : input.drop pos with _ | ⟨c', t⟩ <;> rw [hd] at h
  · exact absurd h (by simp)
  · have hlen : pos < input.length := by
      by_contra hle
      have : input.drop pos = [] := List.drop_eq_nil_iff.2 (by omega)
      simp [this] at hd
    have h' : (if c' = c then
        mmatch input (Re.str s) (pos + 1) caps fun p c => mmatch input r2 p c k
      else none) = some res := h
    by_cases hc : c' = c
    · rw [if_pos hc] at h'
      rcases mmatch_bound _ _ _ _ _ h' with ⟨p1, c1, hle1, hb1, hk1⟩
      rcases mmatch_bound _ _ _ _ _ hk1 with ⟨p2, c2, hle2, hb2, hk2⟩
      exact ⟨p2, c2, by omega, by omega, hk2⟩
    · rw [if_neg hc] at h'; exact absurd h' (by simp)

theorem mexecAux_some {input : List Char} {r : Re} : ∀ (fuel pos : Nat) {idx e : Nat} {caps : Caps},
    mexecAux input r pos fuel = some (idx, e, caps) →
    pos ≤ idx ∧ mmatch input r idx [] (fun e' c' => some (e', c')) = some (e, caps) := by
  intro fuel
  induction fuel with
  | zero => intro pos idx e caps h; exact absurd h (by simp [mexecAux])
  | succ n ih =>
    intro pos idx e caps h
    simp only [mexecAux] at h
    rcases hx : mmatch input r pos [] (fun e' c' => some (e', c')) with _ | ⟨e0, c0⟩ <;>
        rw [hx] at h
    · rcases ih (pos + 1) h with ⟨hle, hm⟩
      exact ⟨by omega, hm⟩
    · have h' : (pos, e0, c0) = (idx, e, caps) := Option.some.inj h
      have h1 : pos = idx := congrArg (fun t => t.1) h'
      have h2 : e0 = e := congrArg (fun t => t.2.1) h'
      have h3 : c0 = caps := congrArg (fun t => t.2.2) h'
      subst h1; subst h2; subst h3
      exact ⟨Nat.le_refl _, hx⟩

/-- Bounds of an open-marker match: markers are non-empty and lie inside the
document. -/
theorem mexec_markerRe_bounds {content : List Char} {pos idx e : Nat} {caps : Caps}
    (h : mexec markerRe content pos = some (idx, e, caps)) :
    pos ≤ idx ∧ idx < e ∧ e ≤ content.length := by
  rcases mexecAux_some _ _ h with ⟨hle, hm⟩
  have hshape : markerRe = Re.cat (Re.str ('<' :: "!--".toList))
      (.cat (.starG (.cls jsWs))
        (.cat (.grp 1 (.alt (Re.strS "ts-embed") (Re.strS "cs-embed")))
          (.cat (.starG (.cls jsWs)) (.cat (.lit ':')
            (.cat (.starG (.cls jsWs))
              (.cat (.grp 2 (Re.plusG (.cls fun c => c != '#')))
                (.cat (.lit '#')
                  (.cat (.grp 3 (Re.plusL (.cls fun c => !(jsWs c))))
                    (.cat (.starG (.cls jsWs)) (Re.strS "-->")))))))))) := rfl
  rw [hshape] at hm
  rcases mmatch_str_cons_bound _ _ _ _ hm with ⟨p1, c1, hlt, hle1, hk1⟩
  have h' : (p1, c1) = (e, caps) := Option.some.inj hk1
  have he : p1 = e := congrArg (fun t => t.1) h'
  exact ⟨hle, by omega, by omega⟩

/-! ### Scanner soundness: markers are non-empty, in-bounds and disjoint in
order of appearance -/

theorem scanOpenMarkersAux_sound (content : List Char) :
    ∀ (fuel pos : Nat),
      (∀ m ∈ scanOpenMarkersAux content pos fuel,
          pos ≤ m.index ∧ 0 < m.length ∧ m.index + m.length ≤ content.length)
      ∧ List.Pairwise (fun a b => a.index + a.length ≤ b.index)
          (scanOpenMarkersAux content pos fuel) := by
  intro fuel
  induction fuel with
  | zero =>
    intro pos
    refine ⟨?_, ?_⟩ <;> simp [scanOpenMarkersAux]
  | succ n ih =>
    intro pos
    rcases hx : mexec markerRe content pos with _ | ⟨idx, e, caps⟩
    · refine ⟨?_, ?_⟩ <;> simp [scanOpenMarkersAux, hx]
    · obtain ⟨hpos, hlt, hlen⟩ := mexec_markerRe_bounds hx
      have hnext : (if idx < e then e else idx + 1) = e := if_pos hlt
      have hunf : scanOpenMarkersAux content pos (n+1) =
          markerOf content idx e caps :: scanOpenMarkersAux content e n := by
        simp only [scanOpenMarkersAux, hx, hnext]
      have hidx : (markerOf content idx e caps).index = idx := rfl
      have hlen' : (markerOf content idx e caps).length = e - idx := rfl
      constructor
      · intro m hm
        rw [hunf] at hm
        rcases List.mem_cons.1 hm with rfl | hm'
        · refine ⟨?_, ?_, ?_⟩
          · rw [hidx]; omega
          · rw [hlen']; omega
          · rw [hidx, hlen']; omega
        · obtain ⟨h1, h2, h3⟩ := (ih e).1 m hm'
          exact ⟨by omega, h2, h3⟩
      · rw [hunf, List.pairwise_cons]
        refine ⟨?_, (ih e).2⟩
        intro m hm
        have := ((ih e).1 m hm).1
        rw [hidx, hlen']; omega

theorem scanOpenMarkers_sound (content : List Char) :
    (∀ m ∈ scanOpenMarkers content, 0 < m.length ∧ m.index + m.length ≤ content.length)
    ∧ List.Pairwise (fun a b => a.index + a.length ≤ b.index) (scanOpenMarkers content) := by
  obtain ⟨h1, h2⟩ := scanOpenMarkersAux_sound content (content.length + 1) 0
  exact ⟨fun m hm => ⟨(h1 m hm).2.1, (h1 m hm).2.2⟩, h2⟩

/-- Between two markers in scan order, the earlier one ends no later than
the later one starts. -/
theorem scanOpenMarkers_get?_le (content : List Char) {i j : Nat} {mi mj : OpenMarker}
    (hi : (scanOpenMarkers content).get? i = some mi)
    (hj : (scanOpenMarkers content).get? j = some mj) (hij : i < j) :
    mi.index + mi.length ≤ mj.index := by
  obtain ⟨hi', rfl⟩ := List.get?_eq_some.1 hi
  obtain ⟨hj', rfl⟩ := List.get?_eq_some.1 hj
  exact List.pairwise_iff_get.1 (scanOpenMarkers_sound content).2 ⟨i, hi'⟩ ⟨j, hj'⟩ hij

theorem scanOpenMarkers_get?_bounds (content : List Char) {i : Nat} {m : OpenMarker}
    (hi : (scanOpenMarkers content).get? i = some m) :
    0 < m.length ∧ m.index + m.length ≤ content.length := by
  obtain ⟨hi', rfl⟩ := List.get?_eq_some.1 hi
  exact (scanOpenMarkers_sound content).1 _ (List.get_mem ..)

/-! ### The shape of `findDirectives` output -/

/-- The close-search window end of the `i`-th directive: the next marker's
start, or the end of the document for the last marker. -/
def searchEndAt (content : List Char) (i : Nat) : Nat :=
  let oms := scanOpenMarkers content
  if i + 1 < oms.length then (oms.getD (i+1) defaultMarker).index else content.length

theorem findDirectives_length (content : List Char) :
    (findDirectives content).length = (scanOpenMarkers content).length := by
  simp [findDirectives]

/-- The `i`-th directive, spelled out in terms of the `i`-th marker and its
close-search window. -/
theorem findDirectives_get? (content : List Char) {i : Nat} {m : OpenMarker}
    (hm : (scanOpenMarkers content).get? i = some m) :
    (findDirectives content).get? i = some
      { kind := m.kind, sourcePath := m.sourcePath, symbolName := m.symbolName,
        lineNumber := (splitNl (strSub content 0 m.index)).length,
        startIndex := m.index,
        endIndex := (jsIndexOfFrom (closeTagOf m.kind)
            (strSub content (m.index + m.length) (searchEndAt content i)) 0).map
          (fun rel => m.index + m.length + rel + (closeTagOf m.kind).length) } := by
  have hi : i < (scanOpenMarkers content).length := by
    obtain ⟨h, _⟩ := List.get?_eq_some.1 hm
    exact h
  have hgetD : (scanOpenMarkers content).getD i defaultMarker = m := by
    simp [List.getD_eq_getElem?_getD, ← List.get?_eq_getElem?, hm]
  have hrange : (List.range (scanOpenMarkers content).length).get? i = some i := by
    rw [List.get?_eq_getElem?, List.getElem?_range hi]
  simp only [findDirectives]
  rw [List.get?_eq_getElem?, List.getElem?_map, List.getElem?_range hi]
  simp only [Option.map_some']
  rw [hgetD]
  rfl

/-! ### indexOf lemmas -/

theorem idxOfFromAux_some {needle hay : List Char} :
    ∀ (fuel pos r : Nat), idxOfFromAux needle hay pos fuel = some r →
      pos ≤ r ∧ needle.isPrefixOf (hay.drop r) = true
      ∧ ∀ q, pos ≤ q → q < r → needle.isPrefixOf (hay.drop q) = false := by
  intro fuel
  induction fuel with
  | zero => intro pos r h; exact absurd h (by simp [idxOfFromAux])
  | succ n ih =>
    intro pos r h
    simp only [idxOfFromAux] at h
    by_cases hp : needle.isPrefixOf (hay.drop pos) = true
    · rw [if_pos hp] at h
      rcases Option.some.inj h with rfl
      exact ⟨Nat.le_refl _, hp, fun q h1 h2 => absurd h1 (by omega)⟩
    · rw [if_neg hp] at h
      obtain ⟨h1, h2, h3⟩ := ih (pos + 1) r h
      refine ⟨by omega, h2, ?_⟩
      intro q hq1 hq2
      by_cases hq : q = pos
      · subst hq; exact Bool.not_eq_true _ ▸ hp
      · exact h3 q (by omega) hq2

theorem idxOfFromAux_none {needle hay : List Char} :
    ∀ (fuel pos : Nat), idxOfFromAux needle hay pos fuel = none →
      ∀ q, pos ≤ q → q < pos + fuel → needle.isPrefixOf (hay.drop q) = false := by
  intro fuel
  induction fuel with
  | zero => intro pos _ q h1 h2; omega
  | succ n ih =>
    intro pos h q h1 h2
    simp only [idxOfFromAux] at h
    by_cases hp : needle.isPrefixOf (hay.drop pos) = true
    · rw [if_pos hp] at h; exact absurd h (by simp)
    · rw [if_neg hp] at h
      by_cases hq : q = pos
      · subst hq; exact Bool.not_eq_true _ ▸ hp
      · exact ih (pos + 1) h q (by omega) (by omega)

theorem jsIndexOfFrom_none_iff {needle hay : List Char} (hne : needle ≠ []) (start : Nat) :
    jsIndexOfFrom needle hay start = none
      ↔ ∀ q, start ≤ q → needle.isPrefixOf (hay.drop q) = false := by
  constructor
  · intro h q hq
    by_cases hlt : q < start + (hay.length + 1)
    · exact idxOfFromAux_none _ _ h q hq hlt
    · have hq' : hay.drop q = [] := List.drop_eq_nil_iff.2 (by omega)
      rw [hq']
      cases needle with
      | nil => exact absurd rfl hne
      | cons a t => rfl
  · intro h
    cases hx : jsIndexOfFrom needle hay start with
    | none => rfl
    | some r =>
      obtain ⟨h1, h2, _⟩ := idxOfFromAux_some _ _ _ hx
      rw [h r h1] at h2
      exact absurd h2 (by simp)

theorem jsIndexOfFrom_some {needle hay : List Char} {start r : Nat}
    (h : jsIndexOfFrom needle hay start = some r) :
    start ≤ r ∧ needle.isPrefixOf (hay.drop r) = true
    ∧ ∀ q, start ≤ q → q < r → needle.isPrefixOf (hay.drop q) = false :=
  idxOfFromAux_some _ _ _ h

/-- Occurrence inside a `substring` window, translated to an occurrence of
the whole text: it must both occur and fit inside the window. -/
theorem isPrefixOf_strSub_iff {needle hay : List Char} {a b p : Nat}
    (hne : 0 < needle.length) :
    needle.isPrefixOf ((strSub hay a b).drop p) = true
      ↔ needle.isPrefixOf (hay.drop (a + p)) = true ∧ a + p + needle.length ≤ b := by
  have h1 : (strSub hay a b).drop p = (hay.drop (a + p)).take (b - (a + p)) := by
    unfold strSub
    rw [List.drop_drop, List.drop_take]
  rw [h1, List.isPrefixOf_iff_prefix, List.isPrefixOf_iff_prefix, List.prefix_take_iff]
  constructor
  · rintro ⟨hp, hl⟩
    exact ⟨hp, by omega⟩
  · rintro ⟨hp, hl⟩
    exact ⟨hp, by omega⟩

/-- The closing tag is never empty. -/
theorem closeTagOf_ne_nil (k : EKind) : 0 < (closeTagOf k).length := by
  cases k <;> decide

/-- **C3.**  The directive scanner searches for an opening marker's closing
tag only within the window from the end of that opening marker to the start
of the next opening marker (or the end of the document for the last marker):
`endIndex` is the no-close sentinel exactly when no closing tag lies wholly
inside that window, and a found `endIndex` points just past the first
closing-tag occurrence of the window and never reaches beyond the next
marker's start — so a closing tag belonging to a later directive is never
used as this directive's close. -/
theorem claim3_close_window (content : List Char) (i : Nat) (m : OpenMarker)
    (d : EmbedDirective)
    (hm : (scanOpenMarkers content).get? i = some m)
    (hd : (findDirectives content).get? i = some d) :
    (d.endIndex = none ↔
      ∀ p, m.index + m.length ≤ p → p + (closeTagOf m.kind).length ≤ searchEndAt content i →
        ¬OccursAt (closeTagOf m.kind) content p)
    ∧ (∀ e, d.endIndex = some e →
        m.index + m.length + (closeTagOf m.kind).length ≤ e
        ∧ e ≤ searchEndAt content i
        ∧ OccursAt (closeTagOf m.kind) content (e - (closeTagOf m.kind).length)
        ∧ ∀ p, m.index + m.length ≤ p → p < e - (closeTagOf m.kind).length →
            ¬OccursAt (closeTagOf m.kind) content p) := by
  have hd' := findDirectives_get? content hm
  rw [hd] at hd'
  obtain rfl := Option.some.inj hd'
  have hlen : 0 < (closeTagOf m.kind).length := closeTagOf_ne_nil m.kind
  have hne : closeTagOf m.kind ≠ [] := by
    intro hnil; rw [hnil] at hlen; simp at hlen
  set ss := m.index + m.length with hss
  set se := searchEndAt content i with hse
  set ct := closeTagOf m.kind with hct
  dsimp only
  constructor
  · rw [Option.map_eq_none']
    rw [jsIndexOfFrom_none_iff hne 0]
    constructor
    · intro hr p hp1 hp2 hOcc
      have hreg : ct.isPrefixOf ((strSub content ss se).drop (p - ss)) = true := by
        rw [isPrefixOf_strSub_iff hlen]
        constructor
        · have : ss + (p - ss) = p := by omega
          rw [this]; exact hOcc
        · omega
      rw [hr (p - ss) (by omega)] at hreg
      exact absurd hreg (by simp)
    · intro hc q _
      cases hb : ct.isPrefixOf ((strSub content ss se).drop q) with
      | false => rfl
      | true =>
        rw [isPrefixOf_strSub_iff hlen] at hb
        exact absurd hb.1 (hc (ss + q) (by omega) (by omega))
  · intro e he
    rw [Option.map_eq_some'] at he
    obtain ⟨rel, hfind, hrel⟩ := he
    obtain ⟨_, hocc, hmin⟩ := jsIndexOfFrom_some hfind
    rw [isPrefixOf_strSub_iff hlen] at hocc
    obtain ⟨hocc1, hocc2⟩ := hocc
    have he1 : e = ss + rel + ct.length := hrel.symm
    refine ⟨by omega, by omega, ?_, ?_⟩
    · have : e - ct.length = ss + rel := by omega
      rw [this]; exact hocc1
    · intro p hp1 hp2 hOcc
      have hq : ct.isPrefixOf ((strSub content ss se).drop (p - ss)) = true := by
        rw [isPrefixOf_strSub_iff hlen]
        constructor
        · have : ss + (p - ss) = p := by omega
          rw [this]; exact hOcc
        · omega
      rw [hmin (p - ss) (by omega) (by omega)] at hq
      exact absurd hq (by simp)

/-! ### Rewrite-loop lemmas -/

/-- One rewrite step never changes the text before the directive's recorded
start offset (the replacement interval begins at or after it). -/
theorem processOne_fst_take (resolve : Resolver) (mdPath : List Char)
    (st : List Char × List ErrorReport) (d : EmbedDirective) (n : Nat)
    (hn : n ≤ d.startIndex) (hlen : n ≤ st.1.length) :
    (processOne resolve mdPath st d).1.take n = st.1.take n
    ∧ n ≤ (processOne resolve mdPath st d).1.length := by
  obtain ⟨res, errs⟩ := st
  simp only [processOne]
  cases hr : resolve d with
  | error reason => exact ⟨rfl, hlen⟩
  | ok code =>
    cases hx : mexec (openMarkerReFor d) (res.drop d.startIndex) 0 with
    | none => exact ⟨rfl, hlen⟩
    | some t =>
      obtain ⟨mi, rest⟩ := t
      obtain ⟨me, caps⟩ := rest
      dsimp only
      have hlen' : n ≤ res.length := hlen
      have htl : (res.take (d.startIndex + me)).length = min (d.startIndex + me) res.length :=
        List.length_take ..
      have hnt : n ≤ (res.take (d.startIndex + me)).length := by omega
      have hnt2 : n ≤ (res.take (d.startIndex + me) ++ '\n' :: codeBlockFor d code).length := by
        rw [List.length_append]; omega
      constructor
      · rw [List.take_append_of_le_length hnt2, List.take_append_of_le_length hnt,
          List.take_take, Nat.min_eq_left (by omega : n ≤ d.startIndex + me)]
      · rw [List.length_append, List.length_append]; omega

/-- Prefix preservation through the whole fold: processing directives whose
start offsets all lie at or beyond `n` leaves the first `n` characters
intact. -/
theorem foldl_processOne_take (resolve : Resolver) (mdPath : List Char) (n : Nat) :
    ∀ (l : List EmbedDirective) (st : List Char × List ErrorReport),
      (∀ d ∈ l, n ≤ d.startIndex) → n ≤ st.1.length →
      (l.foldl (processOne resolve mdPath) st).1.take n = st.1.take n
      ∧ n ≤ (l.foldl (processOne resolve mdPath) st).1.length := by
  intro l
  induction l with
  | nil => intro st _ h; exact ⟨rfl, h⟩
  | cons d t ih =>
    intro st hall hlen
    have h1 := processOne_fst_take resolve mdPath st d n (hall d (by simp)) hlen
    have h2 := ih (processOne resolve mdPath st d) (fun x hx => hall x (by simp [hx])) h1.2
    refine ⟨?_, ?_⟩
    · rw [List.foldl_cons, h2.1, h1.1]
    · rw [List.foldl_cons]; exact h2.2

/-! ### The sort really is "reverse document order" -/

theorem insertDesc_all_le (x : EmbedDirective) :
    ∀ l : List EmbedDirective, (∀ y ∈ l, x.startIndex ≤ y.startIndex) →
      insertDesc x l = l ++ [x] := by
  intro l
  induction l with
  | nil => intro _; rfl
  | cons y t ih =>
    intro h
    simp only [insertDesc]
    rw [if_pos (h y (by simp)), ih (fun z hz => h z (by simp [hz]))]
    rfl

theorem sortByStartDesc_of_sorted :
    ∀ l : List EmbedDirective,
      List.Pairwise (fun a b => a.startIndex < b.startIndex) l →
      sortByStartDesc l = l.reverse := by
  intro l
  induction l with
  | nil => intro _; rfl
  | cons d t ih =>
    intro hp
    rw [List.pairwise_cons] at hp
    have hstep : sortByStartDesc (d :: t) = insertDesc d (sortByStartDesc t) := rfl
    rw [hstep, ih hp.2, insertDesc_all_le, List.reverse_cons]
    intro y hy
    exact Nat.le_of_lt (hp.1 y (List.mem_reverse.1 hy))

theorem get?_drop' {α : Type} (l : List α) (m k : Nat) :
    (l.drop m).get? k = l.get? (m + k) := by
  simp [List.get?_eq_getElem?, List.getElem?_drop]

/-- Directives appear with strictly increasing start offsets. -/
theorem findDirectives_start_lt (content : List Char) :
    List.Pairwise (fun a b => a.startIndex < b.startIndex) (findDirectives content) := by
  rw [List.pairwise_iff_get]
  intro i j hij
  have hleq := findDirectives_length content
  have hi : (i : Nat) < (scanOpenMarkers content).length := by
    have := i.isLt; omega
  have hj : (j : Nat) < (scanOpenMarkers content).length := by
    have := j.isLt; omega
  have hmi := List.get?_eq_get hi
  have hmj := List.get?_eq_get hj
  have hdi := findDirectives_get? content hmi
  have hdj := findDirectives_get? content hmj
  have hgi : (findDirectives content).get? (i : Nat)
      = some ((findDirectives content).get i) := by
    rw [List.get?_eq_get i.isLt]
  have hgj : (findDirectives content).get? (j : Nat)
      = some ((findDirectives content).get j) := by
    rw [List.get?_eq_get j.isLt]
  have hei := Option.some.inj (hgi.symm.trans hdi)
  have hej := Option.some.inj (hgj.symm.trans hdj)
  rw [hei, hej]
  dsimp only
  have hle := scanOpenMarkers_get?_le content hmi hmj (Fin.lt_def.1 hij)
  have hpos := (scanOpenMarkers_get?_bounds content hmi).1
  omega

/-- Strict monotonicity of start offsets, `get?` form. -/
theorem findDirectives_get?_start_lt (content : List Char) {i j : Nat}
    {di dj : EmbedDirective}
    (hi : (findDirectives content).get? i = some di)
    (hj : (findDirectives content).get? j = some dj) (hij : i < j) :
    di.startIndex < dj.startIndex := by
  obtain ⟨hi', hei⟩ := List.get?_eq_some.1 hi
  obtain ⟨hj', hej⟩ := List.get?_eq_some.1 hj
  have := List.pairwise_iff_get.1 (findDirectives_start_lt content) ⟨i, hi'⟩ ⟨j, hj'⟩ hij
  rw [hei, hej] at this
  exact this

/-- The close-search window end, in terms of the directive list: the next
directive's start offset, or the end of the document for the last one. -/
theorem searchEndAt_eq (content : List Char) (i : Nat) :
    searchEndAt content i = (match (findDirectives content).get? (i+1) with
      | some d2 => d2.startIndex
      | none => content.length) := by
  unfold searchEndAt
  by_cases h : i + 1 < (scanOpenMarkers content).length
  · rw [if_pos h]
    have hm := List.get?_eq_get h
    have hd := findDirectives_get? content hm
    rw [hd]
    have hgd : (scanOpenMarkers content).getD (i+1) defaultMarker
        = (scanOpenMarkers content).get ⟨i+1, h⟩ := by
      simp [List.getD_eq_getElem?_getD, ← List.get?_eq_getElem?, hm]
    rw [hgd]
  · rw [if_neg h]
    have hnone : (findDirectives content).get? (i+1) = none := by
      rw [List.get?_eq_none, findDirectives_length]
      omega
    rw [hnone]

theorem searchEndAt_le_length (content : List Char) (i : Nat) :
    searchEndAt content i ≤ content.length := by
  unfold searchEndAt
  by_cases h : i + 1 < (scanOpenMarkers content).length
  · rw [if_pos h]
    have hm := List.get?_eq_get h
    have hb := scanOpenMarkers_get?_bounds content hm
    have hgd : (scanOpenMarkers content).getD (i+1) defaultMarker
        = (scanOpenMarkers content).get ⟨i+1, h⟩ := by
      simp [List.getD_eq_getElem?_getD, ← List.get?_eq_getElem?, hm]
    rw [hgd]
    omega
  · rw [if_neg h]

/-- A found close offset never exceeds its window end. -/
theorem endIndex_le_searchEnd (content : List Char) {i : Nat} {m : OpenMarker}
    {d : EmbedDirective}
    (hm : (scanOpenMarkers content).get? i = some m)
    (hd : (findDirectives content).get? i = some d) :
    ∀ e, d.endIndex = some e → e ≤ searchEndAt content i := by
  have hd' := findDirectives_get? content hm
  rw [hd] at hd'
  obtain rfl := Option.some.inj hd'
  intro e he
  dsimp only at he
  rw [Option.map_eq_some'] at he
  obtain ⟨rel, hfind, hrel⟩ := he
  obtain ⟨_, hocc, _⟩ := jsIndexOfFrom_some hfind
  rw [isPrefixOf_strSub_iff (closeTagOf_ne_nil m.kind)] at hocc
  omega

/-- Every directive past position `i` starts at or after the `(i+1)`-st
directive's start. -/
theorem drop_start_ge (content : List Char) {i : Nat} {d2 : EmbedDirective}
    (h2 : (findDirectives content).get? (i+1) = some d2) :
    ∀ x ∈ (findDirectives content).drop (i+1), d2.startIndex ≤ x.startIndex := by
  intro x hx
  obtain ⟨k, hk⟩ := List.get?_of_mem hx
  rw [get?_drop'] at hk
  rcases Nat.eq_zero_or_pos k with rfl | hkpos
  · have hk' : (findDirectives content).get? (i+1) = some x := hk
    obtain rfl := Option.some.inj (h2.symm.trans hk')
    exact Nat.le_refl _
  · exact Nat.le_of_lt (findDirectives_get?_start_lt content h2 hk (by omega))

/-- **C2.**  The rewrite engine applies replacements in strictly descending
`startIndex` order (the sorted list is exactly reverse document order), and
when the `i`-th directive's turn comes — after every directive with a larger
start offset has been processed, however much those rewrites changed the
text's length — the current text still agrees with the original document on
the whole window `[0, searchEndAt i)`; the directive's stored `startIndex`
and `endIndex` offsets both lie inside that preserved window (the window end
being the next directive's start offset, or the end of document), so its
stored offsets remain valid against the mutated text and no earlier
directive is corrupted or mis-located by a later rewrite. -/
theorem claim2_offset_safety (resolve : Resolver) (mdPath content : List Char)
    (i : Nat) (d : EmbedDirective)
    (hd : (findDirectives content).get? i = some d) :
    List.Pairwise (fun a b => b.startIndex < a.startIndex)
        (sortByStartDesc (findDirectives content))
    ∧ sortByStartDesc (findDirectives content)
        = ((findDirectives content).drop (i+1)).reverse
          ++ ((findDirectives content).take (i+1)).reverse
    ∧ ((((findDirectives content).drop (i+1)).reverse.foldl
          (processOne resolve mdPath) (content, [])).1).take (searchEndAt content i)
        = content.take (searchEndAt content i)
    ∧ d.startIndex < searchEndAt content i
    ∧ (∀ e, d.endIndex = some e → e ≤ searchEndAt content i)
    ∧ searchEndAt content i = (match (findDirectives content).get? (i+1) with
        | some d2 => d2.startIndex
        | none => content.length) := by
  have hinc := findDirectives_start_lt content
  have hsort := sortByStartDesc_of_sorted _ hinc
  have hi : i < (scanOpenMarkers content).length := by
    obtain ⟨h', _⟩ := List.get?_eq_some.1 hd
    have := findDirectives_length content
    omega
  have hm : (scanOpenMarkers content).get? i
      = some ((scanOpenMarkers content).get ⟨i, hi⟩) := List.get?_eq_get hi
  have hstart : d.startIndex = ((scanOpenMarkers content).get ⟨i, hi⟩).index := by
    have hd' := findDirectives_get? content hm
    rw [hd] at hd'
    obtain rfl := Option.some.inj hd'
    rfl
  refine ⟨?_, ?_, ?_, ?_, endIndex_le_searchEnd content hm hd, searchEndAt_eq content i⟩
  · rw [hsort, List.pairwise_reverse]
    exact hinc
  · rw [hsort]
    conv_lhs => rw [← List.take_append_drop (i+1) (findDirectives content)]
    rw [List.reverse_append]
  · have hwin : ∀ x ∈ ((findDirectives content).drop (i+1)).reverse,
        searchEndAt content i ≤ x.startIndex := by
      intro x hx
      rw [List.mem_reverse] at hx
      rw [searchEndAt_eq content i]
      cases h2 : (findDirectives content).get? (i+1) with
      | none =>
        have : (findDirectives content).drop (i+1) = [] := by
          rw [List.get?_eq_none] at h2
          exact List.drop_eq_nil_iff.2 h2
        rw [this] at hx
        exact absurd hx (by simp)
      | some d2 => exact drop_start_ge content h2 x hx
    exact (foldl_processOne_take resolve mdPath (searchEndAt content i) _ _ hwin
      (by simpa using searchEndAt_le_length content i)).1
  · rw [searchEndAt_eq content i]
    cases h2 : (findDirectives content).get? (i+1) with
    | none =>
      have hb := scanOpenMarkers_get?_bounds content hm
      rw [hstart]
      have hred : (match (none : Option EmbedDirective) with
          | some d2 => d2.startIndex
          | none => content.length) = content.length := rfl
      rw [hred]
      omega
    | some d2 => exact findDirectives_get?_start_lt content hd h2 (by omega)

/-! ### Failure isolation -/

/-- The report pushed for one failing directive. -/
def reportOf (mdPath : List Char) (d : EmbedDirective) (reason : List Char) : ErrorReport :=
  { mdFile := mdPath, lineNumber := d.lineNumber, reason := reason,
    sourcePath := d.sourcePath, symbolName := d.symbolName }

/-- Whether a directive resolves successfully. -/
def resolveOk (resolve : Resolver) (d : EmbedDirective) : Bool :=
  match resolve d with
  | .ok _ => true
  | .error _ => false

/-- The failure reason of a directive (empty for successes; only ever read
on failures). -/
def reasonOf (resolve : Resolver) (d : EmbedDirective) : List Char :=
  match resolve d with
  | .error r => r
  | .ok _ => []

theorem processOne_error (resolve : Resolver) (mdPath : List Char)
    (st : List Char × List ErrorReport) (d : EmbedDirective) (reason : List Char)
    (hr : resolve d = .error reason) :
    processOne resolve mdPath st d = (st.1, st.2 ++ [reportOf mdPath d reason]) := by
  obtain ⟨res, errs⟩ := st
  simp only [processOne, hr]
  rfl

theorem processOne_ok_snd (resolve : Resolver) (mdPath res : List Char)
    (errs : List ErrorReport) (d : EmbedDirective) (code : List Char)
    (hr : resolve d = .ok code) :
    (processOne resolve mdPath (res, errs) d).2 = errs := by
  simp only [processOne, hr]
  cases mexec (openMarkerReFor d) (res.drop d.startIndex) 0 with
  | none => rfl
  | some t => obtain ⟨mi, me, caps⟩ := t; rfl

theorem processOne_fst_errs_irrel (resolve : Resolver) (mdPath res : List Char)
    (errs errs' : List ErrorReport) (d : EmbedDirective) :
    (processOne resolve mdPath (res, errs) d).1
      = (processOne resolve mdPath (res, errs') d).1 := by
  cases hr : resolve d with
  | error reason =>
    rw [processOne_error _ _ _ _ _ hr, processOne_error _ _ _ _ _ hr]
  | ok code =>
    simp only [processOne, hr]
    cases mexec (openMarkerReFor d) (res.drop d.startIndex) 0 with
    | none => rfl
    | some t => obtain ⟨mi, me, caps⟩ := t; rfl

/-- The text a rewrite pass produces is exactly the text produced by
processing only the successfully-resolving directives: every failing
directive is a no-op on the text. -/
theorem foldl_processOne_filter (resolve : Resolver) (mdPath : List Char) :
    ∀ (l : List EmbedDirective) (res : List Char) (errs errs' : List ErrorReport),
      (l.foldl (processOne resolve mdPath) (res, errs)).1
        = ((l.filter (resolveOk resolve)).foldl (processOne resolve mdPath) (res, errs')).1 := by
  intro l
  induction l with
  | nil => intro res errs errs'; rfl
  | cons d t ih =>
    intro res errs errs'
    rw [List.foldl_cons]
    cases hr : resolve d with
    | error reason =>
      rw [processOne_error _ _ _ _ _ hr]
      have hf : List.filter (resolveOk resolve) (d :: t)
          = List.filter (resolveOk resolve) t := by
        simp [List.filter_cons, resolveOk, hr]
      rw [hf]
      exact ih res _ errs'
    | ok code =>
      have hf : List.filter (resolveOk resolve) (d :: t)
          = d :: List.filter (resolveOk resolve) t := by
        simp [List.filter_cons, resolveOk, hr]
      rw [hf, List.foldl_cons]
      have hstep := processOne_fst_errs_irrel resolve mdPath res errs errs' d
      have h := ih (processOne resolve mdPath (res, errs) d).1
        (processOne resolve mdPath (res, errs) d).2
        (processOne resolve mdPath (res, errs') d).2
      have hP2 : processOne resolve mdPath (res, errs') d
          = ((processOne resolve mdPath (res, errs) d).1,
             (processOne resolve mdPath (res, errs') d).2) :=
        Prod.ext hstep.symm rfl
      rw [hP2]
      exact h

/-- The error list a rewrite pass produces: exactly one report per failing
directive, in processing order, with the document path, line number, reason
and source reference of that directive. -/
theorem foldl_processOne_errors (resolve : Resolver) (mdPath : List Char) :
    ∀ (l : List EmbedDirective) (res : List Char) (errs : List ErrorReport),
      (l.foldl (processOne resolve mdPath) (res, errs)).2
        = errs ++ (l.filter (fun d => !resolveOk resolve d)).map
            (fun d => reportOf mdPath d (reasonOf resolve d)) := by
  intro l
  induction l with
  | nil => intro res errs; simp
  | cons d t ih =>
    intro res errs
    rw [List.foldl_cons]
    cases hr : resolve d with
    | error reason =>
      rw [processOne_error _ _ _ _ _ hr]
      have hf : List.filter (fun d => !resolveOk resolve d) (d :: t)
          = d :: List.filter (fun d => !resolveOk resolve d) t := by
        simp [List.filter_cons, resolveOk, hr]
      rw [hf, List.map_cons, ih]
      have hreason : reasonOf resolve d = reason := by
        simp [reasonOf, hr]
      rw [hreason, List.append_assoc]
      rfl
    | ok code =>
      have hf : List.filter (fun d => !resolveOk resolve d) (d :: t)
          = List.filter (fun d => !resolveOk resolve d) t := by
        simp [List.filter_cons, resolveOk, hr]
      rw [hf]
      have hpair : processOne resolve mdPath (res, errs) d
          = ((processOne resolve mdPath (res, errs) d).1, errs) := by
        have h2 := processOne_ok_snd resolve mdPath res errs d code hr
        exact Prod.ext rfl h2
      rw [hpair, ih]

/-- **C9.**  During the rewrite pass, a directive that resolved successfully
but whose opening-marker pattern fails to re-match in the current text at or
after its recorded `startIndex` is skipped silently: the text is left
untouched and no error report is produced, so the directive appears in
neither the output changes nor the error list. -/
theorem claim9_silent_skip (resolve : Resolver) (mdPath : List Char)
    (result : List Char) (errors : List ErrorReport) (d : EmbedDirective)
    (code : List Char) (hok : resolve d = .ok code)
    (hmiss : mexec (openMarkerReFor d) (result.drop d.startIndex) 0 = none) :
    processOne resolve mdPath (result, errors) d = (result, errors) := by
  simp only [processOne, hok, hmiss]

/-- **C7.**  Failure isolation in the rewrite engine: a directive whose
resolution fails leaves the text exactly as it was (its marker pair and the
span between the markers are byte-for-byte untouched by that step) and
appends exactly one error report carrying the document path, line number,
reason and `sourcePath#symbolName` reference; the final text of a pass is
identical to the text obtained by processing only the successfully-resolved
directives, so every sibling that resolves is still rewritten, unchanged by
the failure; and the error list is exactly one report per failing directive
in processing order. -/
theorem claim7_failure_isolation (resolve : Resolver) (mdPath content : List Char) :
    (∀ (st : List Char × List ErrorReport) (d : EmbedDirective) (reason : List Char),
        resolve d = .error reason →
        processOne resolve mdPath st d = (st.1, st.2 ++ [reportOf mdPath d reason]))
    ∧ (applyEmbeds resolve content mdPath).1
        = (((sortByStartDesc (findDirectives content)).filter (resolveOk resolve)).foldl
            (processOne resolve mdPath) (content, [])).1
    ∧ (applyEmbeds resolve content mdPath).2
        = ((sortByStartDesc (findDirectives content)).filter
            (fun d => !resolveOk resolve d)).map
          (fun d => reportOf mdPath d (reasonOf resolve d)) := by
  refine ⟨fun st d reason hr => processOne_error resolve mdPath st d reason hr, ?_, ?_⟩
  · by_cases h : (findDirectives content).length = 0
    · have hds : findDirectives content = [] := List.length_eq_zero.1 h
      simp [applyEmbeds, hds, sortByStartDesc]
    · simp only [applyEmbeds, if_neg h]
      exact foldl_processOne_filter resolve mdPath _ content [] []
  · by_cases h : (findDirectives content).length = 0
    · have hds : findDirectives content = [] := List.length_eq_zero.1 h
      simp [applyEmbeds, hds, sortByStartDesc]
    · simp only [applyEmbeds, if_neg h]
      rw [foldl_processOne_errors]
      rfl

/-! ### Leading-trivia handling of the structured extractor -/

/-- Every piece produced by the newline split is a sublist of the text. -/
theorem splitNl_sublist : ∀ (s : List Char), ∀ l ∈ splitNl s, l.Sublist s := by
  intro s
  induction s with
  | nil =>
    intro l hl
    simp only [splitNl, List.mem_singleton] at hl
    subst hl
    simp
  | cons c rest ih =>
    intro l hl
    by_cases hc : c = '\n'
    · subst hc
      rw [show splitNl ('\n' :: rest) = [] :: splitNl rest from by simp [splitNl]] at hl
      rcases List.mem_cons.1 hl with rfl | hl'
      · simp
      · exact (ih l hl').cons _
    · have hunf : splitNl (c :: rest) = (match splitNl rest with
          | [] => [[c]]
          | l :: ls => (c :: l) :: ls) := by
        simp [splitNl, hc]
      rw [hunf] at hl
      cases hsp : splitNl rest with
      | nil =>
        rw [hsp] at hl
        simp only [List.mem_singleton] at hl
        subst hl
        exact (List.nil_sublist rest).cons₂ c
      | cons l0 ls =>
        rw [hsp] at hl
        rcases List.mem_cons.1 hl with rfl | hl'
        · have hm : l0 ∈ splitNl rest := by rw [hsp]; exact List.mem_cons_self _ _
          exact (ih l0 hm).cons₂ c
        · have hm : l ∈ splitNl rest := by rw [hsp]; exact List.mem_cons_of_mem _ hl'
          exact (ih l hm).cons c

/-- A comment line contains a non-whitespace character. -/
theorem isCommentLine_exists_not_ws {l : List Char} (h : isCommentLine l = true) :
    ∃ c ∈ l, jsWs c = false := by
  have htrim : jsTrim l ≠ [] := by
    intro hnil
    unfold isCommentLine at h
    rw [hnil] at h
    simp [List.isPrefixOf] at h
  have hstart : jsTrimStart l ≠ [] := by
    intro hnil
    apply htrim
    unfold jsTrim jsTrimEnd
    rw [hnil]
    rfl
  by_contra hall
  push_neg at hall
  apply hstart
  unfold jsTrimStart
  rw [List.dropWhile_eq_nil_iff]
  intro x hx
  have hx' := hall x hx
  cases hb : jsWs x with
  | true => rfl
  | false => exact absurd hb hx'

/-- If some line of the gap is a comment line, the trimmed gap is
non-empty (this is what the code's truthiness test on `commentBlock`
observes). -/
theorem trimStart_ne_nil_of_any_comment {leading : List Char}
    (h : (splitNl leading).any isCommentLine = true) : jsTrimStart leading ≠ [] := by
  rw [List.any_eq_true] at h
  obtain ⟨l, hl, hcom⟩ := h
  obtain ⟨c, hc, hws⟩ := isCommentLine_exists_not_ws hcom
  have hcm : c ∈ leading := (splitNl_sublist leading l hl).subset hc
  intro hnil
  unfold jsTrimStart at hnil
  rw [List.dropWhile_eq_nil_iff] at hnil
  rw [hnil c hcm] at hws
  exact absurd hws (by simp)

/-- **C4 (amended).**  For the structured extractor's leading-trivia
handling: when at least one line of the gap between the declaration's full
start and its syntactic start is a comment line, the output is the *entire
gap* with leading whitespace stripped (blank and non-comment lines inside
the gap are kept, not dropped — the filtered comment lines are used only as
a non-emptiness test), followed by one newline, followed by the declaration
body trimmed of trailing whitespace; when no gap line is a comment line, no
leading block is prepended and the output is just the trimmed body. -/
theorem claim4_amended_leading_trivia (source : List Char) (fullStart start endPos : Nat) :
    ((splitNl (strSub source fullStart start)).any isCommentLine = true →
      extractNodeText source fullStart start endPos
        = jsTrimStart (strSub source fullStart start)
          ++ '\n' :: jsTrimEnd (strSub source start endPos))
    ∧ ((splitNl (strSub source fullStart start)).any isCommentLine = false →
      extractNodeText source fullStart start endPos
        = jsTrimEnd (strSub source start endPos)) := by
  constructor
  · intro hany
    have hfil : 0 < ((splitNl (strSub source fullStart start)).filter isCommentLine).length := by
      rw [List.length_pos]
      intro hnil
      rw [List.filter_eq_nil_iff] at hnil
      rw [List.any_eq_true] at hany
      obtain ⟨x, hx, hcx⟩ := hany
      exact (hnil x hx) hcx
    have hne := trimStart_ne_nil_of_any_comment hany
    simp only [extractNodeText]
    rw [if_pos hfil, if_neg hne, List.append_assoc]
    rfl
  · intro hany
    have hfil : ((splitNl (strSub source fullStart start)).filter isCommentLine).length = 0 := by
      rw [List.length_eq_zero, List.filter_eq_nil_iff]
      intro a ha hcom
      rw [List.any_eq_false] at hany
      exact hany a ha hcom
    simp only [extractNodeText]
    rw [hfil]
    simp

/-- **C4 (counterexample).**  A doc-comment directly above `function bar`
refutes the claim as stated: the code keeps the whole trimmed gap — whose
final newline survives — and appends another newline, producing a blank
line between the comment block and the body, so the output is *not* the
filtered comment lines followed by exactly one newline and the body. -/
theorem claim4_counterexample :
    extractNodeText "/** d */\nfunction bar() {}".toList 0 9 26
        = "/** d */\n\nfunction bar() {}".toList
    ∧ (splitNl (strSub "/** d */\nfunction bar() {}".toList 0 9)).filter isCommentLine
        = ["/** d */".toList]
    ∧ jsTrimEnd (strSub "/** d */\nfunction bar() {}".toList 9 26)
        = "function bar() {}".toList
    ∧ "/** d */\n\nfunction bar() {}".toList
        ≠ "/** d */".toList ++ '\n' :: "function bar() {}".toList := by
  decide

/-! ### Dotted-name resolution of the structured extractor -/

/-- A declared name free of `.` characters — true of every identifier the
TypeScript parser produces; only a string-literal module name can contain
dots. -/
def nameDotFree : Option (List Char) → Bool
  | some n => n.all (fun c => !(c == '.'))
  | none => true

/-- Dot-free declared names at top level and one level into namespace
bodies (the parser invariant for identifier-named declarations). -/
def stmtsDotFree (stmts : List StmtM) : Bool :=
  stmts.all fun s =>
    nameDotFree (getNodeDeclaredName s) &&
    (match s with
     | .moduleDecl _ _ (some body) _ _ _ =>
        body.all fun inner => nameDotFree (getNodeDeclaredName inner)
     | _ => true)

theorem nameDotFree_ne {o : Option (List Char)} {t : List Char}
    (h : nameDotFree o = true) (hdot : ('.' : Char) ∈ t) : o ≠ some t := by
  intro heq
  subst heq
  have := List.all_eq_true.1 h _ hdot
  simp at this

theorem extractTsSymbolGo_dotfree (source name : List Char) (hdots : 2 ≤ name.count '.') :
    ∀ stmts : List StmtM, stmtsDotFree stmts = true →
      extractTsSymbolGo source name stmts = none := by
  have hdotmem : ('.' : Char) ∈ name := by
    rw [← List.count_pos_iff]
    omega
  intro stmts
  induction stmts with
  | nil => intro _; rfl
  | cons s rest ih =>
    intro hfree
    unfold stmtsDotFree at hfree
    rw [List.all_cons, Bool.and_eq_true] at hfree
    obtain ⟨hs, hrest⟩ := hfree
    rw [Bool.and_eq_true] at hs
    obtain ⟨hname, hmodinner⟩ := hs
    have hne : ¬(getNodeDeclaredName s = some name) := fun heq =>
      nameDotFree_ne hname hdotmem heq
    simp only [extractTsSymbolGo]
    rw [if_neg hne]
    cases s with
    | namedDecl nm f st en => exact ih hrest
    | varStmt nm f st en => exact ih hrest
    | otherStmt f st en => exact ih hrest
    | moduleDecl mname isId body f st en =>
      cases isId with
      | false => exact ih hrest
      | true =>
        cases body with
        | none => exact ih hrest
        | some b =>
          by_cases hpre : List.isPrefixOf (mname ++ ['.']) name = true
          · have hmname0 : mname.count '.' = 0 := by
              rw [List.count_eq_zero]
              intro hmem
              have hall : nameDotFree (some mname) = true := hname
              have := List.all_eq_true.1 hall _ hmem
              simp at this
            obtain ⟨t, ht⟩ := List.isPrefixOf_iff_prefix.1 hpre
            have hdrop : name.drop (mname.length + 1) = t := by
              rw [← ht]
              have hl : (mname ++ ['.']).length = mname.length + 1 := by simp
              rw [← hl, List.drop_left]
            have htcount : 1 ≤ t.count '.' := by
              have hcnt : name.count '.' = (mname ++ ['.']).count '.' + t.count '.' := by
                rw [← ht, List.count_append]
              rw [List.count_append] at hcnt
              have hone : (['.'] : List Char).count '.' = 1 := by decide
              omega
            have htdot : ('.' : Char) ∈ t := by
              rw [← List.count_pos_iff]
              omega
            have hfind : b.find? (fun inner =>
                getNodeDeclaredName inner == some (name.drop (mname.length + 1))) = none := by
              rw [List.find?_eq_none]
              intro inner hin
              have hmatch : (b.all fun inner => nameDotFree (getNodeDeclaredName inner))
                  = true := hmodinner
              have hfree_in := List.all_eq_true.1 hmatch _ hin
              rw [hdrop]
              intro hbeq
              exact nameDotFree_ne hfree_in htdot (eq_of_beq hbeq)
            show (if (mname ++ ['.']).isPrefixOf name = true then
                match b.find? (fun inner => getNodeDeclaredName inner
                    == some (name.drop (mname.length + 1))) with
                | some inner => some (stmtText source inner)
                | none => extractTsSymbolGo source name rest
              else extractTsSymbolGo source name rest) = none
            rw [if_pos hpre, hfind]
            exact ih hrest
          · show (if (mname ++ ['.']).isPrefixOf name = true then
                match b.find? (fun inner => getNodeDeclaredName inner
                    == some (name.drop (mname.length + 1))) with
                | some inner => some (stmtText source inner)
                | none => extractTsSymbolGo source name rest
              else extractTsSymbolGo source name rest) = none
            rw [if_neg hpre]
            exact ih hrest

/-- **C8 (amended).**  On any parsed unit whose declared names (top level
and one level into namespace bodies) are dot-free — which the parser
guarantees for identifier names — a dotted symbol name with more than one
`.` segment is never resolved: the top-level name match cannot fire, and a
one-level namespace lookup leaves an inner name that still contains a dot,
so the extractor returns not-found. -/
theorem claim8_amended_nesting_limit (sf : SourceFileM) (name : List Char)
    (hfree : stmtsDotFree sf.statements = true) (hdots : 2 ≤ name.count '.') :
    extractTsSymbol sf name = none :=
  extractTsSymbolGo_dotfree sf.text name hdots sf.statements hfree

/-- The parsed form of `declare module "A.B.C" {}`: the module's name node
is a string literal (not an identifier), and `getNodeDeclaredName` returns
its text regardless. -/
def c8sf : SourceFileM :=
  ⟨"declare module \"A.B.C\" {}".toList,
   [.moduleDecl "A.B.C".toList false (some []) 0 0 25]⟩

/-- **C8 (counterexample).**  `A.B.C` has two `.` segments beyond the first,
yet on a unit containing `declare module "A.B.C" {}` the extractor returns
that module's text via the top-level name match (`node.name?.text` is the
string-literal text), so "every dotted symbol name with more than one `.`
segment returns not-found" is false as stated. -/
theorem claim8_counterexample :
    2 ≤ ("A.B.C".toList.count '.')
    ∧ extractTsSymbol c8sf "A.B.C".toList
        = some "declare module \"A.B.C\" {}".toList := by
  decide

/-! ### Balanced-delimiter scanner lemmas -/

/-- While any lexical mode is active, a step neither changes the depth nor
returns: brace characters are counted only outside comments and strings. -/
theorem fmbStep_guarded (mode : CsMode) (depth : Int) (ch : Char) (next : Option Char)
    (h : mode ≠ CsMode.plain) :
    (∃ m, fmbStep mode depth ch next = .step1 m depth)
    ∨ (∃ m, fmbStep mode depth ch next = .step2 m depth) := by
  cases mode with
  | plain => exact absurd rfl h
  | lineComment =>
    by_cases hc : ch = '\n'
    · exact Or.inl ⟨.plain, by simp [fmbStep, hc]⟩
    · exact Or.inl ⟨.lineComment, by simp [fmbStep, hc]⟩
  | blockComment =>
    by_cases hc : ch = '*' ∧ next = some '/'
    · exact Or.inr ⟨.plain, by simp [fmbStep, hc]⟩
    · exact Or.inl ⟨.blockComment, by simp [fmbStep, hc]⟩
  | verbatim =>
    by_cases hc : ch = '"' ∧ next = some '"'
    · exact Or.inr ⟨.verbatim, by simp [fmbStep, hc]⟩
    · by_cases hc2 : ch = '"'
      · refine Or.inl ⟨.plain, ?_⟩
        have hnn : ¬next = some '"' := fun hh => hc ⟨hc2, hh⟩
        simp [fmbStep, hc2, hnn]
      · exact Or.inl ⟨.verbatim, by simp [fmbStep, hc2]⟩
  | strLit q =>
    by_cases hc : ch = '\\' ∧ q ≠ backquote
    · exact Or.inr ⟨.strLit q, by simp [fmbStep, hc]⟩
    · have hcc : ¬(ch = '\\' ∧ q ≠ backquote) := hc
      by_cases hc2 : ch = q
      · refine Or.inl ⟨.plain, ?_⟩
        show (if ch = '\\' ∧ q ≠ backquote then FmbOut.step2 (.strLit q) depth
            else if ch = q then FmbOut.step1 .plain depth
            else FmbOut.step1 (.strLit q) depth) = FmbOut.step1 .plain depth
        rw [if_neg hcc, if_pos hc2]
      · refine Or.inl ⟨.strLit q, ?_⟩
        show (if ch = '\\' ∧ q ≠ backquote then FmbOut.step2 (.strLit q) depth
            else if ch = q then FmbOut.step1 .plain depth
            else FmbOut.step1 (.strLit q) depth) = FmbOut.step1 (.strLit q) depth
        rw [if_neg hcc, if_neg hc2]

/-- The scanner returns only at an unguarded `}` that brings the depth to
zero. -/
theorem fmbStep_ret (mode : CsMode) (depth : Int) (ch : Char) (next : Option Char)
    (h : fmbStep mode depth ch next = .ret) :
    mode = CsMode.plain ∧ ch = '}' ∧ depth - 1 = 0 := by
  cases mode with
  | lineComment =>
    have h' : (if ch = '\n' then FmbOut.step1 .plain depth
        else FmbOut.step1 .lineComment depth) = FmbOut.ret := h
    by_cases hc : ch = '\n' <;> simp [hc] at h'
  | blockComment =>
    have h' : (if ch = '*' ∧ next = some '/' then FmbOut.step2 .plain depth
        else FmbOut.step1 .blockComment depth) = FmbOut.ret := h
    by_cases hc : ch = '*' ∧ next = some '/' <;> simp [hc] at h'
  | verbatim =>
    have h' : (if ch = '"' ∧ next = some '"' then FmbOut.step2 .verbatim depth
        else if ch = '"' then FmbOut.step1 .plain depth
        else FmbOut.step1 .verbatim depth) = FmbOut.ret := h
    by_cases hc : ch = '"' ∧ next = some '"'
    · simp [hc] at h'
    · by_cases hc2 : ch = '"' <;> simp [hc, hc2] at h'
      by_cases hn : next = some '"' <;> simp [hn] at h'
  | strLit q =>
    have h' : (if ch = '\\' ∧ q ≠ backquote then FmbOut.step2 (.strLit q) depth
        else if ch = q then FmbOut.step1 .plain depth
        else FmbOut.step1 (.strLit q) depth) = FmbOut.ret := h
    by_cases hc : ch = '\\' ∧ q ≠ backquote
    · simp [hc] at h'
    · by_cases hc2 : ch = q <;> simp [hc, hc2] at h'
      by_cases hh : q = '\\' ∧ ¬q = backquote
      · simp [hh] at h'
        simp [show ¬('\\' : Char) = backquote from by decide] at h'
      · simp [hh] at h'
  | plain =>
    have h' : (if ch = '/' ∧ next = some '/' then FmbOut.step2 .lineComment depth
        else if ch = '/' ∧ next = some '*' then FmbOut.step2 .blockComment depth
        else if ch = '@' ∧ next = some '"' then FmbOut.step2 .verbatim depth
        else if ch = '"' ∨ ch = '\'' then FmbOut.step1 (.strLit ch) depth
        else if ch = '{' then FmbOut.step1 .plain (depth + 1)
        else if ch = '}' then
          (if depth - 1 = 0 then FmbOut.ret else FmbOut.step1 .plain (depth - 1))
        else FmbOut.step1 .plain depth) = FmbOut.ret := h
    refine ⟨rfl, ?_⟩
    split_ifs at h'
    all_goals simp_all

/-- The scenario text `{ var s = "}"; }`, built character by character. -/
def c6scenario : List Char :=
  Char.ofNat 123 :: " var s = ".toList
    ++ '"' :: Char.ofNat 125 :: '"' :: "; ".toList ++ [Char.ofNat 125]

/-- The truncated text `{ "}`, built character by character. -/
def c6truncated : List Char :=
  Char.ofNat 123 :: ' ' :: ['"', Char.ofNat 125]

/-- Whenever the driver returns an offset, that offset lies inside the
scanned text and holds a `}` character. -/
theorem fmbAux_some :
    ∀ (fuel : Nat) (rest : List Char) (pos : Nat) (depth : Int) (mode : CsMode) (j : Nat),
      fmbAux fuel rest pos depth mode = some j →
      pos ≤ j ∧ j - pos < rest.length ∧ rest.get? (j - pos) = some '}' := by
  intro fuel
  induction fuel with
  | zero => intro rest pos depth mode j h; exact absurd h (by simp [fmbAux])
  | succ n ih =>
    intro rest pos depth mode j h
    cases rest with
    | nil => exact absurd h (by simp [fmbAux])
    | cons c r =>
      have h' : (match fmbStep mode depth c r.head? with
          | .ret => some pos
          | .step1 m d => fmbAux n r (pos+1) d m
          | .step2 m d => fmbAux n r.tail (pos+2) d m) = some j := h
      cases hs : fmbStep mode depth c r.head? with
      | ret =>
        rw [hs] at h'
        obtain rfl := Option.some.inj h'
        obtain ⟨_, hc, _⟩ := fmbStep_ret mode depth c r.head? hs
        subst hc
        exact ⟨Nat.le_refl _, by simp, by simp⟩
      | step1 m d =>
        rw [hs] at h'
        obtain ⟨h1, h2, h3⟩ := ih r (pos+1) d m j h'
        refine ⟨by omega, by simp; omega, ?_⟩
        have hidx : j - pos = (j - (pos+1)) + 1 := by omega
        rw [hidx]
        simpa using h3
      | step2 m d =>
        rw [hs] at h'
        obtain ⟨h1, h2, h3⟩ := ih r.tail (pos+2) d m j h'
        have htl : r.tail = r.drop 1 := (List.drop_one r).symm
        rw [htl, get?_drop'] at h3
        have hlen : r.tail.length ≤ r.length := by
          rw [htl, List.length_drop]; omega
        refine ⟨by omega, ?_, ?_⟩
        · simp only [List.length_cons]
          rw [htl, List.length_drop] at h2
          omega
        · have hidx : j - pos = (1 + (j - (pos + 2))) + 1 := by omega
          rw [hidx]
          simpa using h3

/-- **C6.**  The balanced-delimiter scanner counts brace characters only
when no lexical mode (line comment, block comment, quoted string with
backslash escapes, verbatim string with doubled-quote escapes) is active: a
step taken in any active mode preserves the depth and cannot return.  An
unguarded `{` increments the depth (the opening brace itself takes it from
0 to 1) and an unguarded `}` decrements it, returning the offset where the
depth reaches zero — an offset that always lies inside the text and holds a
`}` — while reaching end-of-text first yields the not-found sentinel.
Concretely, a string literal containing an unbalanced `}` inside a
declaration body does not terminate the scan early, and a truncated source
yields not-found. -/
theorem claim6_brace_scanner :
    (∀ (mode : CsMode) (depth : Int) (ch : Char) (next : Option Char),
        mode ≠ CsMode.plain →
        (∃ m, fmbStep mode depth ch next = .step1 m depth)
        ∨ (∃ m, fmbStep mode depth ch next = .step2 m depth))
    ∧ (∀ (depth : Int) (next : Option Char),
        fmbStep CsMode.plain depth '{' next = .step1 CsMode.plain (depth + 1))
    ∧ (∀ (depth : Int) (next : Option Char), depth - 1 ≠ 0 →
        fmbStep CsMode.plain depth '}' next = .step1 CsMode.plain (depth - 1))
    ∧ (∀ (source : List Char) (openPos j : Nat),
        findMatchingBrace source openPos = some j →
        openPos ≤ j ∧ j < source.length ∧ source.get? j = some '}')
    ∧ findMatchingBrace c6scenario 0 = some 15
    ∧ findMatchingBrace c6truncated 0 = none := by
  refine ⟨fmbStep_guarded, ?_, ?_, ?_, by decide, by decide⟩
  · intro depth next
    simp [fmbStep]
  · intro depth next h
    simp [fmbStep, h]
  · intro source openPos j h
    unfold findMatchingBrace at h
    obtain ⟨h1, h2, h3⟩ := fmbAux_some _ _ _ _ _ _ h
    rw [List.length_drop] at h2
    rw [get?_drop'] at h3
    have hidx : openPos + (j - openPos) = j := by omega
    rw [hidx] at h3
    exact ⟨h1, by omega, h3⟩

/-! ### Terminator decision of the lexical extractor -/

/-- **C5 (amended).**  After the type-level declaration pattern matches, the
terminator is decided by comparing the position of the next `{` against the
next `;` found by *plain character search from the end of the match* —
occurrences inside comments or strings count just like any other: if a
semicolon comes first (or no brace exists) the text runs from the
indentation-trimmed declaration start through that semicolon inclusive;
with neither terminator the result is not-found; otherwise the end is the
balanced-delimiter scan's match for that brace and the text runs through it
inclusive. -/
theorem claim5_amended_terminator (source name : List Char) (idx e : Nat) (caps : Caps)
    (hm : mexec (declPattern name) source 0 = some (idx, e, caps)) :
    (∀ s, jsIndexOfCharFrom ';' source e = some s →
        (jsIndexOfCharFrom '{' source e = none
          ∨ (∃ b, jsIndexOfCharFrom '{' source e = some b ∧ s < b)) →
        extractCsSymbol source name
          = some (jsTrimEnd (strSub source
              (idx + (capText source caps 1).length
                - (jsTrimStart (capText source caps 1)).length)
              (s + 1))))
    ∧ (jsIndexOfCharFrom ';' source e = none → jsIndexOfCharFrom '{' source e = none →
        extractCsSymbol source name = none)
    ∧ (∀ b, jsIndexOfCharFrom '{' source e = some b →
        (∀ s, jsIndexOfCharFrom ';' source e = some s → ¬s < b) →
        extractCsSymbol source name
          = (match findMatchingBrace source b with
             | none => none
             | some endIdx => some (jsTrimEnd (strSub source
                 (idx + (capText source caps 1).length
                   - (jsTrimStart (capText source caps 1)).length)
                 (endIdx + 1))))) := by
  have base : extractCsSymbol source name
      = (match jsIndexOfCharFrom ';' source e, jsIndexOfCharFrom '{' source e with
         | some s, none => some (jsTrimEnd (strSub source
             (idx + (capText source caps 1).length
               - (jsTrimStart (capText source caps 1)).length) (s + 1)))
         | some s, some b =>
           if s < b then
             some (jsTrimEnd (strSub source
               (idx + (capText source caps 1).length
                 - (jsTrimStart (capText source caps 1)).length) (s + 1)))
           else
             match findMatchingBrace source b with
             | none => none
             | some endIdx => some (jsTrimEnd (strSub source
                 (idx + (capText source caps 1).length
                   - (jsTrimStart (capText source caps 1)).length) (endIdx + 1)))
         | none, none => none
         | none, some b =>
           match findMatchingBrace source b with
           | none => none
           | some endIdx => some (jsTrimEnd (strSub source
               (idx + (capText source caps 1).length
                 - (jsTrimStart (capText source caps 1)).length) (endIdx + 1)))) := by
    unfold extractCsSymbol
    rw [hm]
  refine ⟨?_, ?_, ?_⟩
  · intro s hs hor
    rcases hor with hb | ⟨b, hb, hlt⟩
    · rw [base, hs, hb]
    · rw [base, hs, hb]
      show (if s < b then _ else _) = _
      rw [if_pos hlt]
  · intro hs hb
    rw [base, hs, hb]
  · intro b hb hns
    cases hs : jsIndexOfCharFrom ';' source e with
    | none => rw [base, hs, hb]
    | some s =>
      rw [base, hs, hb]
      show (if s < b then _ else _) = _
      rw [if_neg (hns s hs)]

/-- The C# snippet whose block comment hides a `;` before the real brace. -/
def c5src : List Char := "class Foo /* ; */ { }".toList

/-- **C5 (counterexample).**  On `class Foo /* ; */ { }` the code returns
the text truncated at the semicolon *inside the block comment* — the plain
`indexOf` comparison is not comment-aware.  The only `;` in the source sits
at offset 13 inside the comment, and the brace at 18 (whose balanced match
is 20) would be the terminator under the claimed "unguarded" rule, whose
result — the full declaration through offset 20 — differs from what the
code produces. -/
theorem claim5_counterexample :
    extractCsSymbol c5src "Foo".toList = some "class Foo /* ;".toList
    ∧ c5src.get? 13 = some ';'
    ∧ (∀ p, p < c5src.length → c5src.get? p = some ';' → p = 13)
    ∧ findMatchingBrace c5src 18 = some 20
    ∧ extractCsSymbol c5src "Foo".toList ≠ some (jsTrimEnd (strSub c5src 0 21)) := by
  decide

/-- **C10.**  The type-level declaration pattern places no word boundary
after the symbol name (`[^{;]*` immediately follows it), so on a source
containing only `class FooBar { }` the query `Foo` — a proper prefix of the
declared name — matches and returns that declaration's text instead of
not-found. -/
theorem claim10_prefix_match :
    extractCsSymbol "class FooBar { }".toList "Foo".toList
        = some "class FooBar { }".toList
    ∧ "Foo".toList ≠ "FooBar".toList
    ∧ List.isPrefixOf "Foo".toList "FooBar".toList = true := by
  decide

/-! ### Idempotence failure of the rewrite engine -/

/-- A resolver whose extracted code contains the literal closing-tag text —
e.g. the declaration `const x = "<!-- /ts-embed -->";` from a real source
file. -/
def c1resolve : Resolver := fun _ => .ok "const x = \"<!-- /ts-embed -->\";".toList

/-- A perfectly ordinary document: one directive with its closing marker. -/
def c1doc : List Char := "<!-- ts-embed: a#x --><!-- /ts-embed -->".toList

/-- **C1 (code bug).**  Re-running the rewrite on its own output changes the
text again: the first run embeds code containing the literal close-tag text,
and the second run's close-tag search (a plain first-occurrence `indexOf`
inside the scan window) finds that embedded occurrence first, truncating the
replacement span inside the fenced block and duplicating its tail — so
`rewrite(rewrite(D)) ≠ rewrite(D)` even though the first run did rewrite
the document. -/
theorem claim1_not_idempotent :
    (applyEmbeds c1resolve c1doc "doc.md".toList).1 ≠ c1doc
    ∧ (applyEmbeds c1resolve
          (applyEmbeds c1resolve c1doc "doc.md".toList).1 "doc.md".toList).1
        ≠ (applyEmbeds c1resolve c1doc "doc.md".toList).1 := by
  decide

/-! ### Concrete witnesses -/

/-- Document for the offset-safety witness. -/
def w2doc : List Char := "<!-- ts-embed: a#x --><!-- /ts-embed -->".toList

/-- Its one directive. -/
def w2d : EmbedDirective :=
  { kind := .ts, sourcePath := "a".toList, symbolName := "x".toList,
    lineNumber := 1, startIndex := 0, endIndex := some 40 }

/-- A resolver for the offset-safety witness. -/
def w2res : Resolver := fun _ => .ok "z".toList

/-- Witness for C2 at a concrete document. -/
theorem claim2_witness :
    (findDirectives w2doc).get? 0 = some w2d
    ∧ ((((findDirectives w2doc).drop 1).reverse.foldl
          (processOne w2res "m".toList) (w2doc, [])).1).take (searchEndAt w2doc 0)
        = w2doc.take (searchEndAt w2doc 0) :=
  ⟨by decide, (claim2_offset_safety w2res "m".toList w2doc 0 w2d (by decide)).2.2.1⟩

/-- Document for the close-window witness. -/
def w3doc : List Char := "<!-- ts-embed: s#y -->body<!-- /ts-embed -->tail".toList

/-- Its open marker. -/
def w3m : OpenMarker :=
  { index := 0, length := 22, kind := .ts,
    sourcePath := "s".toList, symbolName := "y".toList }

/-- Its directive. -/
def w3d : EmbedDirective :=
  { kind := .ts, sourcePath := "s".toList, symbolName := "y".toList,
    lineNumber := 1, startIndex := 0, endIndex := some 44 }

/-- Witness for C3 at a concrete document: the recorded close offset points
just past a real closing-tag occurrence. -/
theorem claim3_witness :
    (scanOpenMarkers w3doc).get? 0 = some w3m
    ∧ (findDirectives w3doc).get? 0 = some w3d
    ∧ OccursAt (closeTagOf w3m.kind) w3doc (44 - (closeTagOf w3m.kind).length) :=
  ⟨by decide, by decide,
    ((claim3_close_window w3doc 0 w3m w3d (by decide) (by decide)).2 44 (by decide)).2.2.1⟩

/-- Witness for C4 (amended) at a doc-comment above a declaration. -/
theorem claim4_witness :
    (splitNl (strSub "/** a */\nconst q = 1;  ".toList 0 9)).any isCommentLine = true
    ∧ extractNodeText "/** a */\nconst q = 1;  ".toList 0 9 23
        = jsTrimStart (strSub "/** a */\nconst q = 1;  ".toList 0 9)
          ++ '\n' :: jsTrimEnd (strSub "/** a */\nconst q = 1;  ".toList 9 23) :=
  ⟨by decide, (claim4_amended_leading_trivia "/** a */\nconst q = 1;  ".toList 0 9 23).1
    (by decide)⟩

/-- Source for the terminator witness: a semicolon-terminated declaration. -/
def w5src : List Char := "class A;".toList

/-- Witness for C5 (amended): the declaration pattern matches `class A` and
the semicolon branch fires. -/
theorem claim5_witness :
    mexec (declPattern "A".toList) w5src 0 = some (0, 7, [(2, 0, 7), (1, 0, 0)])
    ∧ jsIndexOfCharFrom ';' w5src 7 = some 7
    ∧ jsIndexOfCharFrom '{' w5src 7 = none
    ∧ extractCsSymbol w5src "A".toList
        = some (jsTrimEnd (strSub w5src
            (0 + (capText w5src [(2, 0, 7), (1, 0, 0)] 1).length
              - (jsTrimStart (capText w5src [(2, 0, 7), (1, 0, 0)] 1)).length)
            (7 + 1))) :=
  ⟨by decide, by decide, by decide,
    (claim5_amended_terminator w5src "A".toList 0 7 [(2, 0, 7), (1, 0, 0)] (by decide)).1
      7 (by decide) (Or.inl (by decide))⟩

/-- Witness for C6: the scanner's returned offset is in bounds and holds the
closing brace. -/
theorem claim6_witness :
    findMatchingBrace "{ x }".toList 0 = some 4
    ∧ (0 ≤ 4 ∧ 4 < "{ x }".toList.length ∧ "{ x }".toList.get? 4 = some '}') :=
  ⟨by decide, claim6_brace_scanner.2.2.2.1 "{ x }".toList 0 4 (by decide)⟩

/-- A resolver that always fails, for the isolation witness. -/
def w7res : Resolver := fun _ => .error "nope".toList

/-- A directive for the isolation witness. -/
def w7d : EmbedDirective :=
  { kind := .ts, sourcePath := "a".toList, symbolName := "x".toList,
    lineNumber := 1, startIndex := 0, endIndex := none }

/-- Witness for C7: a failing step leaves the text alone and appends exactly
its report. -/
theorem claim7_witness :
    w7res w7d = .error "nope".toList
    ∧ processOne w7res "m".toList ("t".toList, []) w7d
        = ("t".toList, [] ++ [reportOf "m".toList w7d "nope".toList]) :=
  ⟨rfl, (claim7_failure_isolation w7res "m".toList []).1 ("t".toList, []) w7d
    "nope".toList rfl⟩

/-- Unit for the nesting-limit witness. -/
def w8sf : SourceFileM := ⟨"const a = 1;".toList, [.varStmt (some "a".toList) 0 0 12]⟩

/-- Witness for C8 (amended) on a dot-free unit. -/
theorem claim8_witness :
    stmtsDotFree w8sf.statements = true
    ∧ 2 ≤ ("x.y.z".toList.count '.')
    ∧ extractTsSymbol w8sf "x.y.z".toList = none :=
  ⟨by decide, by decide,
    claim8_amended_nesting_limit w8sf "x.y.z".toList (by decide) (by decide)⟩

/-- A resolver that succeeds, for the silent-skip witness. -/
def w9res : Resolver := fun _ => .ok "c".toList

/-- A directive whose marker is absent from the current text. -/
def w9d : EmbedDirective :=
  { kind := .ts, sourcePath := "a".toList, symbolName := "x".toList,
    lineNumber := 1, startIndex := 0, endIndex := none }

/-- Witness for C9: no marker in the current text, no rewrite, no error. -/
theorem claim9_witness :
    w9res w9d = .ok "c".toList
    ∧ mexec (openMarkerReFor w9d) (("no marker here".toList).drop w9d.startIndex) 0 = none
    ∧ processOne w9res "m".toList ("no marker here".toList, []) w9d
        = ("no marker here".toList, []) :=
  ⟨rfl, by decide,
    claim9_silent_skip w9res "m".toList "no marker here".toList [] w9d "c".toList rfl
      (by decide)⟩

end EmbedSync
